import Mathlib

/-!
Verification of the NNTile distributed tile scheduling engine.

Shallow embedding of the tile-intersection copy routine
(`src/tile/copy.cc`), the tensor gather operation
(`src/tensor/gather.cc`), the fused LARS optimizer submission path
(`src/tensor/lars_tiled_step.cc`, `src/starpu/lars_tiled_step.cc`),
the max-plus-sum-of-exponents kernel (`src/kernel/maxsumexp/cpu.cc`)
and the `Tile` buffer-size check (`include/nntile/tile/tile.hh`).

C++ `Index` (a 64-bit signed integer) is modelled as `Int`; `size_t`
arithmetic is modelled as `Nat` with explicit reduction modulo `2 ^ 64`.
Buffers are modelled as total functions `Int → α` from linear offsets to
values.  Fallible functions return their submitted-task list together
with an `Option String` holding the thrown error, when any.
-/

/-! ### List-level index arithmetic

Helper functions over per-axis integer vectors (represented little-endian:
head = axis 0, matching the Fortran column-major convention of the code).
-/

/-- Componentwise sum of two per-axis vectors (length = min of the two). -/
def addL : List Int → List Int → List Int
  | a :: as_, b :: bs => (a + b) :: addL as_ bs
  | _, _ => []

/-- Componentwise product of two per-axis vectors. -/
def mulL : List Int → List Int → List Int
  | a :: as_, b :: bs => (a * b) :: mulL as_ bs
  | _, _ => []

/-- Dot product of two per-axis vectors. -/
def dotL : List Int → List Int → Int
  | a :: as_, b :: bs => a * b + dotL as_ bs
  | _, _ => 0

/-- Product of the entries of a vector (`nelems` of a shape). -/
def prodL : List Int → Int
  | [] => 1
  | a :: as_ => a * prodL as_

/-- The all-zero vector of the same length as the given vector. -/
def zerosL (c : List Int) : List Int := c.map (fun _ => 0)

/-- Increment the first component (the C++ `++index[0]`). -/
def headSucc : List Int → List Int
  | [] => []
  | a :: as_ => (a + 1) :: as_

/-- `validD d c`: `d` is a valid multi-index of the box `[0, c)`:
componentwise `0 ≤ d < c`, with matching lengths. -/
def validD : List Int → List Int → Prop
  | [], [] => True
  | d :: ds, c :: cs => 0 ≤ d ∧ d < c ∧ validD ds cs
  | _, _ => False

instance validD.dec : (d c : List Int) → Decidable (validD d c)
  | [], [] => .isTrue trivial
  | [], _ :: _ => .isFalse (fun h => h)
  | _ :: _, [] => .isFalse (fun h => h)
  | d :: ds, c :: cs =>
    have : Decidable (validD ds cs) := validD.dec ds cs
    inferInstanceAs (Decidable (0 ≤ d ∧ d < c ∧ validD ds cs))

/-- All entries of the vector are positive (a box with nonempty extent on
every axis). -/
def posC : List Int → Prop
  | [] => True
  | c :: cs => 0 < c ∧ posC cs

instance posC.dec : (c : List Int) → Decidable (posC c)
  | [] => .isTrue trivial
  | c :: cs =>
    have : Decidable (posC cs) := posC.dec cs
    inferInstanceAs (Decidable (0 < c ∧ posC cs))

/-- `boundedD a b c`: componentwise `0 ≤ a` and `a + b ≤ c`, with matching
lengths: the box `[a, a + b)` lies inside `[0, c)`. -/
def boundedD : List Int → List Int → List Int → Prop
  | [], [], [] => True
  | a :: as_, b :: bs, c :: cs => 0 ≤ a ∧ a + b ≤ c ∧ boundedD as_ bs cs
  | _, _, _ => False

instance boundedD.dec : (a b c : List Int) → Decidable (boundedD a b c)
  | [], [], [] => .isTrue trivial
  | [], [], _ :: _ => .isFalse (fun h => h)
  | [], _ :: _, _ => .isFalse (fun h => h)
  | _ :: _, [], _ => .isFalse (fun h => h)
  | _ :: _, _ :: _, [] => .isFalse (fun h => h)
  | a :: as_, b :: bs, c :: cs =>
    have : Decidable (boundedD as_ bs cs) := boundedD.dec as_ bs cs
    inferInstanceAs (Decidable (0 ≤ a ∧ a + b ≤ c ∧ boundedD as_ bs cs))

/-- `hasRoom d c`: the mixed-radix successor of `d` in radices `c` exists
without overflowing past the final axis. -/
def hasRoom : List Int → List Int → Prop
  | d :: ds, c :: cs => d + 1 < c ∨ (d + 1 = c ∧ hasRoom ds cs)
  | _, _ => False

instance hasRoom.dec : (d c : List Int) → Decidable (hasRoom d c)
  | [], [] => .isFalse (fun h => h)
  | [], _ :: _ => .isFalse (fun h => h)
  | _ :: _, [] => .isFalse (fun h => h)
  | d :: ds, c :: cs =>
    have : Decidable (hasRoom ds cs) := hasRoom.dec ds cs
    inferInstanceAs (Decidable (d + 1 < c ∨ (d + 1 = c ∧ hasRoom ds cs)))

/-- Mixed-radix successor of a multi-index `d` in the box `[0, c)`. -/
def incD : List Int → List Int → List Int
  | d :: ds, c :: cs => if d + 1 = c then 0 :: incD ds cs else (d + 1) :: ds
  | d, _ => d

/-- Standard column-major conversion of a multi-index to a linear offset
(the geometry contract of `TileTraits`):
`lin = i₀ + s₀ * (i₁ + s₁ * (i₂ + ...))`. -/
def index_to_linear : List Int → List Int → Int
  | i :: is_, s :: ss => i + s * index_to_linear is_ ss
  | _, _ => 0

/-- Modelled from the spec: `linear_to_index` of `TileTraits`
(`include/nntile/tile/traits.hh` is not part of the given sources);
the spec states it is the standard column-major conversion, mutually
inverse with `index_to_linear` on valid indices. -/
def linear_to_index : List Int → Int → List Int
  | [], _ => []
  | c :: cs, i => (i % c) :: linear_to_index cs (i / c)

/-- Column-major strides of a shape: `stride[0] = 1`,
`stride[i] = stride[i-1] * shape[i-1]`. -/
def colStrides : List Int → List Int
  | [] => []
  | s :: ss => 1 :: (colStrides ss).map (fun x => x * s)

/-- Pointwise update of a buffer modelled as a function. -/
def updF {β : Type} (f : Int → β) (i : Int) (v : β) : Int → β :=
  fun j => if j = i then v else f j

/-! ### Basic lemmas about the index arithmetic -/

theorem addL_nil_right : ∀ a : List Int, addL a [] = [] := by
  intro a; cases a <;> simp [addL]

theorem dotL_addL : ∀ a b s : List Int, a.length = s.length → b.length = s.length →
    dotL (addL a b) s = dotL a s + dotL b s := by
  intro a
  induction a with
  | nil => intro b s ha _; cases s with
    | nil => simp [addL, dotL]
    | cons _ _ => simp at ha
  | cons x xs ih =>
    intro b s ha hb
    cases s with
    | nil => simp at ha
    | cons y ys =>
      cases b with
      | nil => simp at hb
      | cons z zs =>
        simp only [addL, dotL]
        rw [ih zs ys (by simpa using ha) (by simpa using hb)]
        ring

theorem validD_length : ∀ d c : List Int, validD d c → d.length = c.length := by
  intro d
  induction d with
  | nil => intro c h; cases c with
    | nil => rfl
    | cons _ _ => exact absurd h (by simp [validD])
  | cons x xs ih =>
    intro c h
    cases c with
    | nil => exact absurd h (by simp [validD])
    | cons y ys => simpa using ih ys h.2.2

theorem boundedD_length₁ : ∀ a b c : List Int, boundedD a b c → a.length = b.length := by
  intro a
  induction a with
  | nil => intro b c h; cases b with
    | nil => rfl
    | cons _ _ => cases c <;> exact absurd h (by simp [boundedD])
  | cons x xs ih =>
    intro b c h
    cases b with
    | nil => cases c <;> exact absurd h (by simp [boundedD])
    | cons y ys =>
      cases c with
      | nil => exact absurd h (by simp [boundedD])
      | cons z zs => simpa using ih ys zs h.2.2

theorem boundedD_length₂ : ∀ a b c : List Int, boundedD a b c → a.length = c.length := by
  intro a
  induction a with
  | nil => intro b c h; cases c with
    | nil => rfl
    | cons _ _ => cases b <;> exact absurd h (by simp [boundedD])
  | cons x xs ih =>
    intro b c h
    cases b with
    | nil => cases c <;> exact absurd h (by simp [boundedD])
    | cons y ys =>
      cases c with
      | nil => exact absurd h (by simp [boundedD])
      | cons z zs => simpa using ih ys zs h.2.2

theorem posC_validD_zeros : ∀ c : List Int, posC c → validD (zerosL c) c := by
  intro c
  induction c with
  | nil => intro _; trivial
  | cons x xs ih =>
    intro h
    exact ⟨le_refl 0, h.1, ih h.2⟩

theorem zerosL_length (c : List Int) : (zerosL c).length = c.length := by
  simp [zerosL]

theorem index_to_linear_zeros : ∀ c : List Int, index_to_linear (zerosL c) c = 0 := by
  intro c
  induction c with
  | nil => simp [zerosL, index_to_linear]
  | cons x xs ih => simp [zerosL, index_to_linear] at ih ⊢; simp [ih]

theorem rank_bounds : ∀ d c : List Int, validD d c →
    0 ≤ index_to_linear d c ∧ index_to_linear d c < prodL c := by
  intro d
  induction d with
  | nil =>
    intro c h
    cases c with
    | nil => simp [index_to_linear, prodL]
    | cons _ _ => exact absurd h (by simp [validD])
  | cons x xs ih =>
    intro c h
    cases c with
    | nil => exact absurd h (by simp [validD])
    | cons y ys =>
      obtain ⟨h0, h1, h2⟩ := h
      obtain ⟨ih0, ih1⟩ := ih ys h2
      simp only [index_to_linear, prodL]
      constructor
      · nlinarith
      · nlinarith [mul_le_mul_of_nonneg_left
          (by omega : index_to_linear xs ys ≤ prodL ys - 1) (by omega : (0:Int) ≤ y)]

theorem rank_inj : ∀ d e c : List Int, validD d c → validD e c →
    index_to_linear d c = index_to_linear e c → d = e := by
  intro d
  induction d with
  | nil =>
    intro e c hd he _
    cases c with
    | nil =>
      cases e with
      | nil => rfl
      | cons _ _ => exact absurd he (by simp [validD])
    | cons _ _ => exact absurd hd (by simp [validD])
  | cons x xs ih =>
    intro e c hd he heq
    cases c with
    | nil => exact absurd hd (by simp [validD])
    | cons y ys =>
      cases e with
      | nil => exact absurd he (by simp [validD])
      | cons z zs =>
        obtain ⟨hd0, hd1, hd2⟩ := hd
        obtain ⟨he0, he1, he2⟩ := he
        simp only [index_to_linear] at heq
        have hdvd : y ∣ (x - z) :=
          ⟨index_to_linear zs ys - index_to_linear xs ys, by linarith [heq, mul_sub y (index_to_linear zs ys) (index_to_linear xs ys)]⟩
        have hxz : x - z = 0 := Int.eq_zero_of_abs_lt_dvd hdvd (by rw [abs_lt]; omega)
        have hx : x = z := by omega
        have hy0 : y ≠ 0 := by omega
        have htl : index_to_linear xs ys = index_to_linear zs ys := by
          have : y * index_to_linear xs ys = y * index_to_linear zs ys := by omega
          exact mul_left_cancel₀ hy0 this
        rw [hx, ih zs ys hd2 he2 htl]

theorem rank_noRoom : ∀ d c : List Int, validD d c → ¬hasRoom d c →
    index_to_linear d c = prodL c - 1 := by
  intro d
  induction d with
  | nil =>
    intro c h _
    cases c with
    | nil => simp [index_to_linear, prodL]
    | cons _ _ => exact absurd h (by simp [validD])
  | cons x xs ih =>
    intro c h hr
    cases c with
    | nil => exact absurd h (by simp [validD])
    | cons y ys =>
      obtain ⟨h0, h1, h2⟩ := h
      simp only [hasRoom, not_or, not_and] at hr
      have hxy : x + 1 = y := by omega
      have htl : ¬hasRoom xs ys := hr.2 hxy
      have := ih ys h2 htl
      simp only [index_to_linear, prodL, this]
      have : y * (prodL ys - 1) = y * prodL ys - y := by ring
      omega

theorem rank_incD : ∀ d c : List Int, validD d c → hasRoom d c →
    validD (incD d c) c ∧ index_to_linear (incD d c) c = index_to_linear d c + 1 := by
  intro d
  induction d with
  | nil =>
    intro c h hr
    cases c with
    | nil => exact absurd hr (by simp [hasRoom])
    | cons _ _ => exact absurd h (by simp [validD])
  | cons x xs ih =>
    intro c h hr
    cases c with
    | nil => exact absurd h (by simp [validD])
    | cons y ys =>
      obtain ⟨h0, h1, h2⟩ := h
      by_cases hxy : x + 1 = y
      · have htl : hasRoom xs ys := by
          rcases hr with h' | h'
          · omega
          · exact h'.2
        obtain ⟨ihv, ihr⟩ := ih ys h2 htl
        constructor
        · simp only [incD, if_pos hxy]
          exact ⟨le_refl 0, by omega, ihv⟩
        · simp only [incD, if_pos hxy, index_to_linear, ihr]
          have : y * (index_to_linear xs ys + 1) = y * index_to_linear xs ys + y := by ring
          omega
      · have hlt : x + 1 < y := by
          rcases hr with h' | h'
          · exact h'
          · exact absurd h'.1 hxy
        constructor
        · simp only [incD, if_neg hxy]
          exact ⟨by omega, by omega, h2⟩
        · simp only [incD, if_neg hxy, index_to_linear]
          omega

/-- The multi-index reached after `t` mixed-radix increments from zero. -/
def digitsIter (t : Nat) (c : List Int) : List Int :=
  (fun d => incD d c)^[t] (zerosL c)

theorem digitsIter_spec : ∀ (t : Nat) (c : List Int), posC c → (t : Int) < prodL c →
    validD (digitsIter t c) c ∧ index_to_linear (digitsIter t c) c = t := by
  intro t
  induction t with
  | zero =>
    intro c hp _
    exact ⟨posC_validD_zeros c hp, by simp [digitsIter, index_to_linear_zeros]⟩
  | succ t ih =>
    intro c hp hlt
    have hlt' : (t : Int) < prodL c := by push_cast at hlt ⊢; omega
    obtain ⟨hv, hr⟩ := ih c hp hlt'
    have hroom : hasRoom (digitsIter t c) c := by
      by_contra hno
      have := rank_noRoom _ _ hv hno
      rw [hr] at this
      push_cast at hlt
      omega
    obtain ⟨hv', hr'⟩ := rank_incD _ _ hv hroom
    refine ⟨?_, ?_⟩
    · simpa [digitsIter, Function.iterate_succ_apply'] using hv'
    · simp only [digitsIter, Function.iterate_succ_apply']
      simp only [digitsIter] at hr'
      rw [hr']
      simp only [digitsIter] at hr
      rw [hr]
      push_cast
      ring

theorem linear_to_index_spec : ∀ c : List Int, posC c → ∀ i : Int, 0 ≤ i → i < prodL c →
    validD (linear_to_index c i) c ∧ index_to_linear (linear_to_index c i) c = i := by
  intro c
  induction c with
  | nil =>
    intro _ i hi hlt
    simp only [prodL] at hlt
    refine ⟨trivial, ?_⟩
    simp [linear_to_index, index_to_linear]
    omega
  | cons y ys ih =>
    intro hp i hi hlt
    obtain ⟨hy, hp'⟩ := hp
    have hy0 : y ≠ 0 := by omega
    have hdn : 0 ≤ i / y := Int.ediv_nonneg hi (le_of_lt hy)
    have hdl : i / y < prodL ys := by
      rw [Int.ediv_lt_iff_lt_mul hy]
      simp only [prodL] at hlt
      linarith [hlt]
    obtain ⟨ihv, ihr⟩ := ih hp' (i / y) hdn hdl
    refine ⟨⟨Int.emod_nonneg i hy0, Int.emod_lt_of_pos i hy, ihv⟩, ?_⟩
    simp only [linear_to_index, index_to_linear, ihr]
    exact Int.emod_add_ediv i y

theorem digitsIter_eq_linear_to_index (t : Nat) (c : List Int) (hp : posC c)
    (hlt : (t : Int) < prodL c) : digitsIter t c = linear_to_index c t := by
  obtain ⟨hv1, hr1⟩ := digitsIter_spec t c hp hlt
  obtain ⟨hv2, hr2⟩ := linear_to_index_spec c hp t (by positivity) hlt
  exact rank_inj _ _ _ hv1 hv2 (by rw [hr1, hr2])

theorem dotL_map_mul : ∀ (xs l : List Int) (k : Int),
    dotL xs (l.map (fun z => z * k)) = dotL xs l * k := by
  intro xs
  induction xs with
  | nil => intro l k; cases l <;> simp [dotL]
  | cons x xt ih =>
    intro l k
    cases l with
    | nil => simp [dotL]
    | cons y yt =>
      simp only [List.map, dotL, ih]
      ring

theorem dotL_colStrides : ∀ d s : List Int, d.length = s.length →
    dotL d (colStrides s) = index_to_linear d s := by
  intro d
  induction d with
  | nil =>
    intro s h
    cases s with
    | nil => rfl
    | cons _ _ => simp at h
  | cons x xs ih =>
    intro s h
    cases s with
    | nil => simp at h
    | cons y ys =>
      simp only [colStrides, dotL, dotL_map_mul, index_to_linear,
        ih ys (by simpa using h)]
      ring

theorem colStrides_length : ∀ s : List Int, (colStrides s).length = s.length := by
  intro s
  induction s with
  | nil => rfl
  | cons y ys ih => simp [colStrides, ih]

theorem validD_addL : ∀ a b c p : List Int, boundedD a b c → validD p b →
    validD (addL a p) c := by
  intro a
  induction a with
  | nil =>
    intro b c p hb hp
    cases b with
    | nil =>
      cases c with
      | nil => cases p with
        | nil => trivial
        | cons _ _ => exact absurd hp (by simp [validD])
      | cons _ _ => exact absurd hb (by simp [boundedD])
    | cons _ _ => exact absurd hb (by simp [boundedD])
  | cons a0 as ih =>
    intro b c p hb hp
    cases b with
    | nil => cases c <;> exact absurd hb (by simp [boundedD])
    | cons b0 bs =>
      cases c with
      | nil => exact absurd hb (by simp [boundedD])
      | cons c0 cs =>
        cases p with
        | nil => exact absurd hp (by simp [validD])
        | cons p0 ps =>
          obtain ⟨hb0, hb1, hb2⟩ := hb
          obtain ⟨hp0, hp1, hp2⟩ := hp
          exact ⟨by omega, by omega, ih bs cs ps hb2 hp2⟩

theorem addL_cancel : ∀ a p q : List Int, p.length = a.length → q.length = a.length →
    addL a p = addL a q → p = q := by
  intro a
  induction a with
  | nil =>
    intro p q hp hq _
    cases p with
    | nil => cases q with
      | nil => rfl
      | cons _ _ => simp at hq
    | cons _ _ => simp at hp
  | cons a0 as ih =>
    intro p q hp hq heq
    cases p with
    | nil => simp at hp
    | cons p0 ps =>
      cases q with
      | nil => simp at hq
      | cons q0 qs =>
        simp only [addL, List.cons.injEq] at heq
        have h1 : p0 = q0 := by omega
        have h2 : ps = qs := ih ps qs (by simpa using hp) (by simpa using hq) heq.2
        rw [h1, h2]

/-! ### The strided-copy CPU kernel `cpu_copy_intersection`

Translated from `src/tile/copy.cc` lines 30-87.  The carry-propagating
`while` loop (lines 66-74 for the source side, 75-82 for the destination
side) becomes `advanceC`: it receives the vectors as seen from the current
axis `j` onward, with the head of the index already incremented, and wraps
axes while `index[j] == start[j] + copy_shape[j]`, adding the stride
correction `stride[j+1] - copy_shape[j]*stride[j]` to the running offset
at each wrap.  The out-of-range fallthrough (reading past the vectors,
undefined behavior in C++) never fires under the preconditions of the
theorems below. -/
def advanceC : List Int → List Int → List Int → List Int → Int → List Int × Int
  | i :: itl, s :: _stl, c :: ctl, r :: rtl, off =>
    if i = s + c then
      match itl, _stl, ctl, rtl with
      | i1 :: itl1, s1 :: stl1, c1 :: ctl1, r1 :: rtl1 =>
        let res := advanceC ((i1 + 1) :: itl1) (s1 :: stl1) (c1 :: ctl1) (r1 :: rtl1)
          (off + r1 - c * r)
        (s :: res.1, res.2)
      | _, _, _, _ => (s :: itl, off)
    else (i :: itl, off)
  | i, _, _, _, off => (i, off)
  termination_by i _ _ _ _ => i.length

/-- State of the element-copy loop: the two multi-indices kept in the
scratch buffer, the two running linear offsets, and the destination
buffer contents. -/
structure CopyState (α : Type) where
  src_index : List Int
  dst_index : List Int
  src_off : Int
  dst_off : Int
  dst : Int → α

/-- One iteration of the copy loop (lines 63-86 of `src/tile/copy.cc`):
increment both multi-indices at axis 0, propagate carries while adjusting
the offsets, copy one element, and post-increment both offsets. -/
def copyStep {α : Type} (src : Int → α)
    (src_start src_stride copy_shape dst_start dst_stride : List Int)
    (st : CopyState α) : CopyState α :=
  let s := advanceC (headSucc st.src_index) src_start copy_shape src_stride st.src_off
  let d := advanceC (headSucc st.dst_index) dst_start copy_shape dst_stride st.dst_off
  { src_index := s.1
    dst_index := d.1
    src_off := s.2 + 1
    dst_off := d.2 + 1
    dst := updF st.dst d.2 (src s.2) }

/-- The initial linear offset (lines 53-59 of `src/tile/copy.cc`):
`start[0]` plus `start[i]*stride[i]` for `i ≥ 1` (the code relies on
`stride[0] = 1`, so this is the full dot product under that assumption). -/
def initOff : List Int → List Int → Int
  | s :: stl, _ :: rtl => s + dotL stl rtl
  | _, _ => 0

/-- The CPU codelet `cpu_copy_intersection` for `ndim ≥ 1`: unconditionally
copy the first element of the box, then run `nelems - 1` carry-propagating
iterations.  Returns the final destination buffer. -/
def cpu_copy_intersection {α : Type}
    (src_start src_stride copy_shape dst_start dst_stride : List Int)
    (src dst : Int → α) : Int → α :=
  let nelems := prodL copy_shape
  let so := initOff src_start src_stride
  let dOff := initOff dst_start dst_stride
  let st0 : CopyState α :=
    { src_index := src_start
      dst_index := dst_start
      src_off := so + 1
      dst_off := dOff + 1
      dst := updF dst dOff (src so) }
  ((copyStep src src_start src_stride copy_shape dst_start dst_stride)^[(nelems - 1).toNat]
    st0).dst

/-- `headI`-style head of an integer list with default `0`. -/
def hd0 : List Int → Int
  | [] => 0
  | a :: _ => a

/-- Correctness of the carry-propagating `while` loop: starting from a
multi-index `start + d` whose axis-0 component was just incremented, it
produces `start + (incD d c)` and corrects the running offset by the
corresponding change of the dot product against the strides, less the
head stride (which the caller already added via `++offset`). -/
theorem advanceC_spec : ∀ (d c s str : List Int) (off : Int),
    s.length = d.length → str.length = d.length →
    validD d c → hasRoom d c →
    advanceC (headSucc (addL s d)) s c str off =
      (addL s (incD d c), off + dotL (incD d c) str - dotL d str - hd0 str) := by
  intro d
  induction d with
  | nil => intro c s str off _ _ _ hr; exact absurd hr (by cases c <;> simp [hasRoom])
  | cons d0 ds ih =>
    intro c s str off hs hstr hv hr
    cases c with
    | nil => exact absurd hv (by simp [validD])
    | cons c0 cs =>
      cases s with
      | nil => simp at hs
      | cons s0 ss =>
        cases str with
        | nil => simp at hstr
        | cons r0 rs =>
          obtain ⟨hv0, hv1, hv2⟩ := hv
          cases ds with
          | nil =>
            -- a single axis remains: `hasRoom` forces no wrap
            have hcs : cs = [] := by
              cases cs with
              | nil => rfl
              | cons _ _ => exact absurd hv2 (by simp [validD])
            subst hcs
            have hss : ss = [] := by simpa using hs
            have hrs : rs = [] := by simpa using hstr
            subst hss; subst hrs
            have hwrap : d0 + 1 < c0 := by
              rcases hr with h' | h'
              · exact h'
              · exact absurd h'.2 (by simp [hasRoom])
            have hcond : ¬(s0 + d0 + 1 = s0 + c0) := by omega
            simp only [headSucc, addL, advanceC, if_neg hcond, incD,
              if_neg (by omega : ¬(d0 + 1 = c0)), dotL, hd0, Prod.mk.injEq]
            constructor
            · simp only [addL, List.cons.injEq]
              exact ⟨by ring, trivial⟩
            · ring
          | cons d1 ds1 =>
            cases cs with
            | nil => exact absurd hv2 (by simp [validD])
            | cons c1 cs1 =>
              cases ss with
              | nil => simp at hs
              | cons s1 ss1 =>
                cases rs with
                | nil => simp at hstr
                | cons r1 rs1 =>
                  by_cases hwrap : d0 + 1 = c0
                  · -- axis 0 wraps
                    have hroom : hasRoom (d1 :: ds1) (c1 :: cs1) := by
                      rcases hr with h' | h'
                      · omega
                      · exact h'.2
                    have hcond : s0 + d0 + 1 = s0 + c0 := by omega
                    have hih := ih (c1 :: cs1) (s1 :: ss1) (r1 :: rs1)
                      (off + r1 - c0 * r0)
                      (by simpa using hs) (by simpa using hstr) hv2 hroom
                    simp only [headSucc, addL] at hih
                    simp only [headSucc, addL, advanceC, if_pos hcond, hih, incD,
                      if_pos hwrap, dotL, hd0, Prod.mk.injEq]
                    constructor
                    · simp [addL]
                    · have hc : c0 = d0 + 1 := hwrap.symm
                      subst hc
                      ring
                  · -- no wrap at axis 0
                    have hcond : ¬(s0 + d0 + 1 = s0 + c0) := by omega
                    simp only [headSucc, addL, advanceC, if_neg hcond, incD,
                      if_neg hwrap, dotL, hd0, Prod.mk.injEq]
                    constructor
                    · simp only [addL, List.cons.injEq]
                      exact ⟨by ring, trivial⟩
                    · ring

theorem addL_zerosL : ∀ a c : List Int, a.length = c.length → addL a (zerosL c) = a := by
  intro a
  induction a with
  | nil => intro c h; cases c <;> simp [addL, zerosL]
  | cons x xs ih =>
    intro c h
    cases c with
    | nil => simp at h
    | cons y ys =>
      have hih := ih ys (by simpa using h)
      simp only [zerosL, List.map] at hih ⊢
      simp only [addL, List.cons.injEq]
      exact ⟨by ring, hih⟩

theorem addL_length : ∀ a b : List Int, a.length = b.length → (addL a b).length = a.length := by
  intro a
  induction a with
  | nil => intro b h; cases b <;> simp [addL]
  | cons x xs ih =>
    intro b h
    cases b with
    | nil => simp at h
    | cons y ys => simp [addL, ih ys (by simpa using h)]

theorem prodL_pos : ∀ c : List Int, posC c → 0 < prodL c := by
  intro c
  induction c with
  | nil => intro _; simp [prodL]
  | cons x xs ih => intro h; exact mul_pos h.1 (ih h.2)

theorem initOff_eq_dotL : ∀ s str : List Int, hd0 str = 1 → initOff s str = dotL s str := by
  intro s str h
  cases str with
  | nil => simp [hd0] at h
  | cons r0 rtl =>
    cases s with
    | nil => simp [initOff, dotL]
    | cons s0 stl =>
      simp only [hd0] at h
      simp [initOff, dotL, h]

theorem digitsIter_succ (t : Nat) (c : List Int) :
    digitsIter (t + 1) c = incD (digitsIter t c) c := by
  simp [digitsIter, Function.iterate_succ_apply']

theorem hasRoom_of_lt (t : Nat) (c : List Int) (hp : posC c)
    (hlt : (t : Int) + 1 < prodL c) : hasRoom (digitsIter t c) c := by
  obtain ⟨hv, hr⟩ := digitsIter_spec t c hp (by omega)
  by_contra hno
  have := rank_noRoom _ _ hv hno
  rw [hr] at this
  omega

/-- The linear offset of the `j`-th visited element on one side: the offset,
against the given strides, of `start + digitsIter j`. -/
def dLin (start stride c : List Int) (j : Nat) : Int :=
  dotL (addL start (digitsIter j c)) stride

/-- The destination buffer after the writes of iterations `0..t` of the
copy loop, written naively element by element. -/
def writesUpTo {α : Type} (src dst : Int → α)
    (src_start src_stride c dst_start dst_stride : List Int) : Nat → Int → α
  | 0 => updF dst (dLin dst_start dst_stride c 0) (src (dLin src_start src_stride c 0))
  | t + 1 => updF (writesUpTo src dst src_start src_stride c dst_start dst_stride t)
      (dLin dst_start dst_stride c (t + 1)) (src (dLin src_start src_stride c (t + 1)))

/-- Loop invariant of the element-copy loop: after `t` iterations the scratch
multi-indices are `start + digitsIter t`, the running offsets are the
corresponding dot products (plus the pending `++offset`), and the destination
holds the first `t + 1` naive writes. -/
theorem copyLoop_inv {α : Type} (src dst : Int → α)
    (src_start src_stride copy_shape dst_start dst_stride : List Int)
    (hls : src_start.length = copy_shape.length)
    (hlss : src_stride.length = copy_shape.length)
    (hld : dst_start.length = copy_shape.length)
    (hlds : dst_stride.length = copy_shape.length)
    (hpos : posC copy_shape)
    (hs1 : hd0 src_stride = 1) (hd1 : hd0 dst_stride = 1) :
    ∀ t : Nat, (t : Int) < prodL copy_shape →
    (copyStep src src_start src_stride copy_shape dst_start dst_stride)^[t]
      { src_index := src_start
        dst_index := dst_start
        src_off := initOff src_start src_stride + 1
        dst_off := initOff dst_start dst_stride + 1
        dst := updF dst (initOff dst_start dst_stride) (src (initOff src_start src_stride)) } =
      { src_index := addL src_start (digitsIter t copy_shape)
        dst_index := addL dst_start (digitsIter t copy_shape)
        src_off := dLin src_start src_stride copy_shape t + 1
        dst_off := dLin dst_start dst_stride copy_shape t + 1
        dst := writesUpTo src dst src_start src_stride copy_shape dst_start dst_stride t } := by
  intro t
  induction t with
  | zero =>
    intro _
    simp only [Function.iterate_zero, id_eq]
    have hz : digitsIter 0 copy_shape = zerosL copy_shape := rfl
    rw [hz, addL_zerosL _ _ hls, addL_zerosL _ _ hld]
    simp only [writesUpTo, dLin, hz, addL_zerosL _ _ hls, addL_zerosL _ _ hld,
      initOff_eq_dotL _ _ hs1, initOff_eq_dotL _ _ hd1]
  | succ t ih =>
    intro hlt
    have hlt' : (t : Int) < prodL copy_shape := by push_cast at hlt ⊢; omega
    rw [Function.iterate_succ_apply', ih hlt']
    obtain ⟨hv, _⟩ := digitsIter_spec t copy_shape hpos hlt'
    have hroom : hasRoom (digitsIter t copy_shape) copy_shape :=
      hasRoom_of_lt t copy_shape hpos (by push_cast at hlt; omega)
    have hdl : (digitsIter t copy_shape).length = copy_shape.length :=
      validD_length _ _ hv
    have hsadv := advanceC_spec (digitsIter t copy_shape) copy_shape src_start src_stride
      (dLin src_start src_stride copy_shape t + 1) (by omega) (by omega) hv hroom
    have hdadv := advanceC_spec (digitsIter t copy_shape) copy_shape dst_start dst_stride
      (dLin dst_start dst_stride copy_shape t + 1) (by omega) (by omega) hv hroom
    have hvinc : validD (incD (digitsIter t copy_shape) copy_shape) copy_shape :=
      (rank_incD _ _ hv hroom).1
    have hdinc : (incD (digitsIter t copy_shape) copy_shape).length = copy_shape.length :=
      validD_length _ _ hvinc
    have hsoff : dLin src_start src_stride copy_shape t + 1 +
        dotL (incD (digitsIter t copy_shape) copy_shape) src_stride -
        dotL (digitsIter t copy_shape) src_stride - hd0 src_stride =
        dLin src_start src_stride copy_shape (t + 1) := by
      simp only [dLin, digitsIter_succ,
        dotL_addL src_start (digitsIter t copy_shape) src_stride (by omega) (by omega),
        dotL_addL src_start (incD (digitsIter t copy_shape) copy_shape) src_stride
          (by omega) (by omega), hs1]
      ring
    have hdoff : dLin dst_start dst_stride copy_shape t + 1 +
        dotL (incD (digitsIter t copy_shape) copy_shape) dst_stride -
        dotL (digitsIter t copy_shape) dst_stride - hd0 dst_stride =
        dLin dst_start dst_stride copy_shape (t + 1) := by
      simp only [dLin, digitsIter_succ,
        dotL_addL dst_start (digitsIter t copy_shape) dst_stride (by omega) (by omega),
        dotL_addL dst_start (incD (digitsIter t copy_shape) copy_shape) dst_stride
          (by omega) (by omega), hd1]
      ring
    simp only [copyStep, hsadv, hdadv, hsoff, hdoff, writesUpTo]
    refine CopyState.mk.injEq _ _ _ _ _ _ _ _ _ _ |>.mpr ?_
    refine ⟨by rw [digitsIter_succ], by rw [digitsIter_succ], ?_, ?_, ?_⟩
    · omega
    · omega
    · rfl

theorem writesUpTo_miss {α : Type} (src dst : Int → α) (sst sstr c dst_ dstr : List Int) :
    ∀ (t : Nat) (q : Int), (∀ j : Nat, j ≤ t → q ≠ dLin dst_ dstr c j) →
    writesUpTo src dst sst sstr c dst_ dstr t q = dst q := by
  intro t
  induction t with
  | zero =>
    intro q h
    simp only [writesUpTo, updF]
    rw [if_neg (h 0 le_rfl)]
  | succ t ih =>
    intro q h
    simp only [writesUpTo, updF]
    rw [if_neg (h (t + 1) le_rfl)]
    exact ih q (fun j hj => h j (le_trans hj (Nat.le_succ t)))

theorem writesUpTo_hit {α : Type} (src dst : Int → α) (sst sstr c dst_ dstr : List Int) :
    ∀ (t j : Nat), j ≤ t →
    (∀ j' : Nat, j' ≤ t → dLin dst_ dstr c j' = dLin dst_ dstr c j → j' = j) →
    writesUpTo src dst sst sstr c dst_ dstr t (dLin dst_ dstr c j) =
      src (dLin sst sstr c j) := by
  intro t
  induction t with
  | zero =>
    intro j hj _
    have hz : j = 0 := by omega
    subst hz
    simp [writesUpTo, updF]
  | succ t ih =>
    intro j hj hinj
    by_cases hje : j = t + 1
    · subst hje
      simp [writesUpTo, updF]
    · have hjt : j ≤ t := by omega
      have hne : dLin dst_ dstr c j ≠ dLin dst_ dstr c (t + 1) := by
        intro he
        exact hje ((hinj (t + 1) le_rfl he.symm)).symm
      simp only [writesUpTo, updF]
      rw [if_neg hne]
      exact ih j hjt (fun j' hj' he => hinj j' (le_trans hj' (Nat.le_succ t)) he)

theorem cpu_copy_eq_writes {α : Type} (src dst : Int → α) (sst sstr c dst_ dstr : List Int)
    (hls : sst.length = c.length) (hlss : sstr.length = c.length)
    (hld : dst_.length = c.length) (hlds : dstr.length = c.length)
    (hpos : posC c) (hs1 : hd0 sstr = 1) (hd1 : hd0 dstr = 1) :
    cpu_copy_intersection sst sstr c dst_ dstr src dst =
      writesUpTo src dst sst sstr c dst_ dstr (prodL c - 1).toNat := by
  have hp := prodL_pos c hpos
  have hN : (((prodL c - 1).toNat : Int)) < prodL c := by
    rw [Int.toNat_of_nonneg (by omega)]
    omega
  simp only [cpu_copy_intersection]
  rw [copyLoop_inv src dst sst sstr c dst_ dstr hls hlss hld hlds hpos hs1 hd1 _ hN]

theorem colStrides_hd0 : ∀ s : List Int, s ≠ [] → hd0 (colStrides s) = 1 := by
  intro s h
  cases s with
  | nil => exact absurd rfl h
  | cons x xs => rfl

/-- Functional characterization of `cpu_copy_intersection` under the
preconditions of a well-formed intersection task (column-major strides,
box of positive extent contained in both tiles): every element of the box
receives the corresponding source element, and every linear offset not
written by the box is untouched. -/
theorem cpu_copy_box {α : Type} (src dst : Int → α)
    (src_shape dst_shape src_start dst_start copy_shape : List Int)
    (hnd : copy_shape ≠ [])
    (hpos : posC copy_shape)
    (hbs : boundedD src_start copy_shape src_shape)
    (hbd : boundedD dst_start copy_shape dst_shape) :
    (∀ p : List Int, validD p copy_shape →
      cpu_copy_intersection src_start (colStrides src_shape) copy_shape
          dst_start (colStrides dst_shape) src dst
          (index_to_linear (addL dst_start p) dst_shape)
        = src (index_to_linear (addL src_start p) src_shape)) ∧
    (∀ q : Int,
      (∀ p : List Int, validD p copy_shape →
        q ≠ index_to_linear (addL dst_start p) dst_shape) →
      cpu_copy_intersection src_start (colStrides src_shape) copy_shape
          dst_start (colStrides dst_shape) src dst q = dst q) := by
  have hls : src_start.length = copy_shape.length := boundedD_length₁ _ _ _ hbs
  have hlsh : src_start.length = src_shape.length := boundedD_length₂ _ _ _ hbs
  have hld : dst_start.length = copy_shape.length := boundedD_length₁ _ _ _ hbd
  have hldh : dst_start.length = dst_shape.length := boundedD_length₂ _ _ _ hbd
  have hsshne : src_shape ≠ [] := by
    intro h
    rw [h] at hlsh
    simp at hlsh
    rw [hlsh] at hls
    exact hnd (List.eq_nil_of_length_eq_zero hls.symm)
  have hdshne : dst_shape ≠ [] := by
    intro h
    rw [h] at hldh
    simp at hldh
    rw [hldh] at hld
    exact hnd (List.eq_nil_of_length_eq_zero hld.symm)
  have heqw := cpu_copy_eq_writes src dst src_start (colStrides src_shape) copy_shape
    dst_start (colStrides dst_shape) hls
    (by rw [colStrides_length]; omega)
    hld
    (by rw [colStrides_length]; omega)
    hpos (colStrides_hd0 _ hsshne) (colStrides_hd0 _ hdshne)
  have hp := prodL_pos copy_shape hpos
  have hjlt : ∀ j : Nat, j ≤ (prodL copy_shape - 1).toNat → (j : Int) < prodL copy_shape := by
    intro j hj
    have := Int.toNat_of_nonneg (by omega : (0:Int) ≤ prodL copy_shape - 1)
    omega
  -- each visited destination offset is the column-major rank of a box point
  have hdLin : ∀ (start shape : List Int) (j : Nat),
      start.length = copy_shape.length → start.length = shape.length →
      (j : Int) < prodL copy_shape →
      dLin start (colStrides shape) copy_shape j =
        index_to_linear (addL start (digitsIter j copy_shape)) shape := by
    intro start shape j h1 h2 hjl
    obtain ⟨hv, _⟩ := digitsIter_spec j copy_shape hpos hjl
    have hdl := validD_length _ _ hv
    simp only [dLin]
    exact dotL_colStrides _ _ (by rw [addL_length start _ (by omega), h2])
  -- injectivity of the visited destination offsets
  have hinj : ∀ j j' : Nat, j ≤ (prodL copy_shape - 1).toNat →
      j' ≤ (prodL copy_shape - 1).toNat →
      dLin dst_start (colStrides dst_shape) copy_shape j' =
        dLin dst_start (colStrides dst_shape) copy_shape j → j' = j := by
    intro j j' hj hj' he
    obtain ⟨hvj, hrj⟩ := digitsIter_spec j copy_shape hpos (hjlt j hj)
    obtain ⟨hvj', hrj'⟩ := digitsIter_spec j' copy_shape hpos (hjlt j' hj')
    rw [hdLin dst_start dst_shape j hld (by omega) (hjlt j hj),
      hdLin dst_start dst_shape j' hld (by omega) (hjlt j' hj')] at he
    have hva := validD_addL _ _ _ _ hbd hvj
    have hva' := validD_addL _ _ _ _ hbd hvj'
    have hadd := rank_inj _ _ _ hva' hva he
    have hdig := addL_cancel dst_start _ _
      (by rw [validD_length _ _ hvj']; omega) (by rw [validD_length _ _ hvj]; omega) hadd
    have : (j' : Int) = (j : Int) := by rw [← hrj', ← hrj, hdig]
    omega
  constructor
  · intro p hvp
    have hrp := rank_bounds p copy_shape hvp
    set j : Nat := (index_to_linear p copy_shape).toNat with hjdef
    have hjint : (j : Int) = index_to_linear p copy_shape := Int.toNat_of_nonneg hrp.1
    have hjle : j ≤ (prodL copy_shape - 1).toNat := by
      have h1 := Int.toNat_of_nonneg (by omega : (0:Int) ≤ prodL copy_shape - 1)
      omega
    obtain ⟨hvj, hrj⟩ := digitsIter_spec j copy_shape hpos (by omega)
    have hdp : digitsIter j copy_shape = p := by
      apply rank_inj _ _ _ hvj hvp
      rw [hrj, hjint]
    rw [heqw, ← hdp]
    rw [← hdLin dst_start dst_shape j hld (by omega) (by omega),
      ← hdLin src_start src_shape j hls (by omega) (by omega)]
    exact writesUpTo_hit src dst src_start (colStrides src_shape) copy_shape
      dst_start (colStrides dst_shape) _ j hjle (fun j' hj' he => hinj j j' hjle hj' he)
  · intro q hq
    rw [heqw]
    apply writesUpTo_miss
    intro j hj he
    obtain ⟨hvj, _⟩ := digitsIter_spec j copy_shape hpos (hjlt j hj)
    apply hq (digitsIter j copy_shape) hvj
    rw [he, hdLin dst_start dst_shape j hld (by omega) (hjlt j hj)]

/-- C1: the general strided copy routine `cpu_copy_intersection` is equivalent
to the naive per-element index mapping: for every `ndim ≥ 1`, column-major
strides, `copy_shape` with all entries `≥ 1`, and start vectors whose boxes
`[start, start + copy_shape)` lie within each tile's shape, the incremental
offset updates visit exactly the elements
`dst[index_to_linear (dst_start + p)] = src[index_to_linear (src_start + p)]`
for every multi-index `p` of the box `[0, copy_shape)`, and every destination
element outside that box is unchanged. -/
theorem C1_cpu_copy_intersection_refines_naive {α : Type} (src dst : Int → α)
    (src_shape dst_shape src_start dst_start copy_shape src_stride dst_stride : List Int)
    (hnd : 1 ≤ copy_shape.length)
    (hss : src_stride = colStrides src_shape)
    (hds : dst_stride = colStrides dst_shape)
    (hpos : posC copy_shape)
    (hbs : boundedD src_start copy_shape src_shape)
    (hbd : boundedD dst_start copy_shape dst_shape) :
    (∀ p : List Int, validD p copy_shape →
      cpu_copy_intersection src_start src_stride copy_shape dst_start dst_stride src dst
          (index_to_linear (addL dst_start p) dst_shape)
        = src (index_to_linear (addL src_start p) src_shape)) ∧
    (∀ q : List Int, validD q dst_shape →
      (∀ p : List Int, validD p copy_shape → q ≠ addL dst_start p) →
      cpu_copy_intersection src_start src_stride copy_shape dst_start dst_stride src dst
          (index_to_linear q dst_shape) = dst (index_to_linear q dst_shape)) := by
  subst hss
  subst hds
  have hne : copy_shape ≠ [] := by
    intro h
    rw [h] at hnd
    simp at hnd
  obtain ⟨hA, hB⟩ := cpu_copy_box src dst src_shape dst_shape src_start dst_start
    copy_shape hne hpos hbs hbd
  refine ⟨hA, ?_⟩
  intro q hvq hout
  apply hB
  intro p hvp heq
  apply hout p hvp
  exact rank_inj _ _ _ hvq (validD_addL _ _ _ _ hbd hvp) heq

theorem C1_witness :
    1 ≤ ([2] : List Int).length ∧ posC [2] ∧
    boundedD [1] [2] [3] ∧ boundedD [0] [2] [4] ∧ validD [1] [2] ∧
    cpu_copy_intersection [1] (colStrides [3]) [2] [0] (colStrides [4])
        (fun q => q) (fun _ => (0 : Int))
        (index_to_linear (addL [0] [1]) [4])
      = (fun q => q) (index_to_linear (addL [1] [1]) [3]) :=
  ⟨by decide, by decide, by decide, by decide, by decide,
    (C1_cpu_copy_intersection_refines_naive (fun q => q) (fun _ => (0 : Int))
      [3] [4] [1] [0] [2] (colStrides [3]) (colStrides [4])
      (by decide) rfl rfl (by decide) (by decide) (by decide)).1 [1] (by decide)⟩

/-- C7: the intersection copy is idempotent: when the copied box is fully
contained in both the source and the destination tile, running
`cpu_copy_intersection` twice with the same arguments gives the same
destination contents as running it once. -/
theorem C7_copy_idempotent {α : Type} (src dst : Int → α)
    (src_shape dst_shape src_start dst_start copy_shape : List Int)
    (hnd : 1 ≤ copy_shape.length)
    (hpos : posC copy_shape)
    (hbs : boundedD src_start copy_shape src_shape)
    (hbd : boundedD dst_start copy_shape dst_shape) :
    cpu_copy_intersection src_start (colStrides src_shape) copy_shape
        dst_start (colStrides dst_shape) src
        (cpu_copy_intersection src_start (colStrides src_shape) copy_shape
          dst_start (colStrides dst_shape) src dst)
      = cpu_copy_intersection src_start (colStrides src_shape) copy_shape
          dst_start (colStrides dst_shape) src dst := by
  have hne : copy_shape ≠ [] := by
    intro h
    rw [h] at hnd
    simp at hnd
  obtain ⟨hA1, hB1⟩ := cpu_copy_box src dst src_shape dst_shape src_start dst_start
    copy_shape hne hpos hbs hbd
  obtain ⟨hA2, hB2⟩ := cpu_copy_box src
    (cpu_copy_intersection src_start (colStrides src_shape) copy_shape
      dst_start (colStrides dst_shape) src dst)
    src_shape dst_shape src_start dst_start copy_shape hne hpos hbs hbd
  funext q
  by_cases hq : ∃ p : List Int, validD p copy_shape ∧
      q = index_to_linear (addL dst_start p) dst_shape
  · obtain ⟨p, hp, rfl⟩ := hq
    rw [hA2 p hp, hA1 p hp]
  · push_neg at hq
    exact hB2 q hq

theorem C7_witness :
    1 ≤ ([2] : List Int).length ∧ posC [2] ∧
    boundedD [0] [2] [2] ∧ boundedD [1] [2] [3] ∧
    cpu_copy_intersection [0] (colStrides [2]) [2] [1] (colStrides [3])
        (fun q => q)
        (cpu_copy_intersection [0] (colStrides [2]) [2] [1] (colStrides [3])
          (fun q => q) (fun _ => (7 : Int)))
      = cpu_copy_intersection [0] (colStrides [2]) [2] [1] (colStrides [3])
          (fun q => q) (fun _ => (7 : Int)) :=
  ⟨by decide, by decide, by decide, by decide,
    C7_copy_idempotent (fun q => q) (fun _ => (7 : Int)) [2] [3] [0] [1] [2]
      (by decide) (by decide) (by decide) (by decide)⟩

/-! ### The tile-level submission routine `copy_intersection_work`

Translated from `src/tile/copy.cc` lines 89-199.  The per-axis loop
(lines 133-162) becomes `intersect_axes`; a submitted task is recorded as a
`CopyTask` value carrying everything handed to `starpu_task_insert`.  The
return value pairs the list of insertion attempts with the thrown error, if
any (`throw std::runtime_error` on a nonzero insertion code). -/

/-- StarPU buffer access modes used by the modelled submission paths. -/
inductive AccessMode
  | R
  | W
  | RW
  | Scratch
  deriving DecidableEq, Inhabited

/-- One task handed to `starpu_task_insert` by `copy_intersection_work`:
either the scalar `ndim == 0` codelet or the general strided-copy codelet
with its packed arguments and the destination access mode. -/
structure CopyTask where
  ndim0 : Bool
  ndim : Int
  src_start : List Int
  src_stride : List Int
  copy_shape : List Int
  dst_start : List Int
  dst_stride : List Int
  dst_mode : AccessMode
  deriving DecidableEq, Inhabited

/-- The per-axis intersection loop (lines 133-162): `none` when some axis
has the early `return` (no overlap by the code's test), otherwise the
computed `src_start`, `dst_start`, `copy_shape` vectors and the
`full_overwrite` flag. -/
def intersect_axes : List Int → List Int → List Int → List Int →
    Option (List Int × List Int × List Int × Bool)
  | [], [], [], [] => some ([], [], [], true)
  | so :: sos, ssh :: sshs, dov :: dos, dsh :: dshs =>
    if so + ssh ≤ dov ∨ dov + dsh ≤ so then none
    else
      -- copy to the beginning of destination / from the beginning of source
      let r :=
        if so < dov then
          ((dov - so, (0 : Int)), min (ssh - (dov - so)) dsh)
        else
          (((0 : Int), so - dov), min (dsh - (so - dov)) ssh)
      match intersect_axes sos sshs dos dshs with
      | none => none
      | some (sss, dss, css, fo) =>
        some (r.1.1 :: sss, r.1.2 :: dss, r.2 :: css, (decide (r.2 = dsh)) && fo)
  | _, _, _, _ => none

/-- `copy_intersection_work`: perform the axis-intersection computation and
hand at most one task to `starpu_task_insert` (whose return code is the
`insertRet` argument); throw when that code is nonzero. -/
def copy_intersection_work (insertRet : Int)
    (src_shape src_stride src_offset dst_shape dst_stride dst_offset : List Int) :
    List CopyTask × Option String :=
  let ndim : Int := src_shape.length
  if ndim = 0 then
    ([{ ndim0 := true, ndim := 0, src_start := [], src_stride := [], copy_shape := [],
        dst_start := [], dst_stride := [], dst_mode := .W }],
     if insertRet ≠ 0 then some "ret != 0" else none)
  else
    match intersect_axes src_offset src_shape dst_offset dst_shape with
    | none => ([], none)
    | some (ss, ds, cs, fo) =>
      ([{ ndim0 := false, ndim := ndim, src_start := ss, src_stride := src_stride,
          copy_shape := cs, dst_start := ds, dst_stride := dst_stride,
          dst_mode := if fo then .W else .RW }],
       if insertRet ≠ 0 then some "ret != 0" else none)

/-- Execute one submitted copy task on the modelled buffers: the scalar
codelet copies the single element at offset `0`; the general codelet runs
`cpu_copy_intersection`. -/
def runCopyTask {α : Type} (src : Int → α) (dst : Int → α) (t : CopyTask) : Int → α :=
  if t.ndim0 then updF dst 0 (src 0)
  else cpu_copy_intersection t.src_start t.src_stride t.copy_shape t.dst_start
    t.dst_stride src dst

/-- Execute a list of submitted copy tasks in order. -/
def runCopyTasks {α : Type} (src : Int → α) (ts : List CopyTask) (dst : Int → α) : Int → α :=
  ts.foldl (runCopyTask src) dst

theorem posC_getD : ∀ (c : List Int) (i : Nat), posC c → i < c.length → 0 < c.getD i 0 := by
  intro c
  induction c with
  | nil => intro i _ h; simp at h
  | cons x xs ih =>
    intro i hp hi
    cases i with
    | zero => exact hp.1
    | succ j => exact ih j hp.2 (by simpa using hi)

theorem intersect_axes_none_of_axis : ∀ (so ssh dov dsh : List Int) (i : Nat),
    so.length = ssh.length → dov.length = ssh.length → dsh.length = ssh.length →
    i < ssh.length →
    (so.getD i 0 + ssh.getD i 0 ≤ dov.getD i 0 ∨
      dov.getD i 0 + dsh.getD i 0 ≤ so.getD i 0) →
    intersect_axes so ssh dov dsh = none := by
  intro so
  induction so with
  | nil =>
    intro ssh dov dsh i h1 _ _ hi _
    rw [← h1] at hi
    simp at hi
  | cons so0 sos ih =>
    intro ssh dov dsh i h1 h2 h3 hi hdisj
    cases ssh with
    | nil => simp at h1
    | cons ssh0 sshs =>
      cases dov with
      | nil => simp at h2
      | cons dov0 dos =>
        cases dsh with
        | nil => simp at h3
        | cons dsh0 dshs =>
          cases i with
          | zero =>
            simp only [List.getD] at hdisj
            simp only [intersect_axes]
            rw [if_pos (by simpa using hdisj)]
          | succ j =>
            simp only [intersect_axes]
            by_cases hc : so0 + ssh0 ≤ dov0 ∨ dov0 + dsh0 ≤ so0
            · rw [if_pos hc]
            · rw [if_neg hc]
              have := ih sshs dos dshs j (by simpa using h1) (by simpa using h2)
                (by simpa using h3) (by simpa using hi) (by simpa using hdisj)
              rw [this]

/-- C2 (amended): for tiles of equal dimensionality `ndim ≥ 1` whose extent is
positive on every axis, if on at least one axis the global intervals
`[src_offset, src_offset + src.shape)` and `[dst_offset, dst_offset + dst.shape)`
are disjoint, then `copy_intersection_work` submits no task and throws no
error, and running the (empty) submission leaves the destination unchanged.
(The original claim, without the positive-extent requirement, is refuted by
`C2_counterexample`: a zero-extent axis gives an empty — hence disjoint —
interval the code's test does not detect.) -/
theorem C2_disjoint_axis_no_task {α : Type} (insertRet : Int)
    (src_shape src_stride src_offset dst_shape dst_stride dst_offset : List Int)
    (src dst : Int → α)
    (hnd : 1 ≤ src_shape.length)
    (h1 : src_offset.length = src_shape.length)
    (h2 : dst_offset.length = src_shape.length)
    (h3 : dst_shape.length = src_shape.length)
    (hps : posC src_shape) (hpd : posC dst_shape)
    (hex : ∃ i : Nat, i < src_shape.length ∧
      Disjoint
        (Set.Ico (src_offset.getD i 0) (src_offset.getD i 0 + src_shape.getD i 0))
        (Set.Ico (dst_offset.getD i 0) (dst_offset.getD i 0 + dst_shape.getD i 0))) :
    copy_intersection_work insertRet src_shape src_stride src_offset
        dst_shape dst_stride dst_offset = ([], none) ∧
    runCopyTasks src
      (copy_intersection_work insertRet src_shape src_stride src_offset
        dst_shape dst_stride dst_offset).1 dst = dst := by
  obtain ⟨i, hi, hdisj⟩ := hex
  rw [Set.Ico_disjoint_Ico] at hdisj
  have hsp : 0 < src_shape.getD i 0 := posC_getD _ _ hps hi
  have hdp : 0 < dst_shape.getD i 0 := posC_getD _ _ hpd (by omega)
  have hcond : src_offset.getD i 0 + src_shape.getD i 0 ≤ dst_offset.getD i 0 ∨
      dst_offset.getD i 0 + dst_shape.getD i 0 ≤ src_offset.getD i 0 := by
    omega
  have hnone := intersect_axes_none_of_axis src_offset src_shape dst_offset dst_shape i
    h1 h2 h3 hi hcond
  have hres : copy_intersection_work insertRet src_shape src_stride src_offset
      dst_shape dst_stride dst_offset = ([], none) := by
    simp only [copy_intersection_work]
    rw [if_neg (by intro h; rw [Int.natCast_eq_zero] at h; omega), hnone]
  exact ⟨hres, by rw [hres]; rfl⟩

theorem C2_counterexample :
    Disjoint (Set.Ico (5 : Int) (5 + 0)) (Set.Ico (0 : Int) (0 + 10)) ∧
    (copy_intersection_work 0 [0] [1] [5] [10] [1] [0]).1 ≠ [] := by
  constructor
  · rw [Set.Ico_disjoint_Ico]
    norm_num
  · decide

theorem C2_witness :
    copy_intersection_work 0 [2] [1] [0] [3] [1] [5] = ([], none) ∧
    runCopyTasks (fun q => q)
      (copy_intersection_work 0 [2] [1] [0] [3] [1] [5]).1 (fun _ => (0 : Int)) =
      (fun _ => (0 : Int)) :=
  C2_disjoint_axis_no_task 0 [2] [1] [0] [3] [1] [5] (fun q => q) (fun _ => (0 : Int))
    (by decide) (by decide) (by decide) (by decide) (by decide) (by decide)
    ⟨0, by decide, Set.Ico_disjoint_Ico.mpr (by norm_num)⟩

theorem intersect_axes_overlap : ∀ so ssh dov dsh : List Int,
    so.length = ssh.length → dov.length = ssh.length → dsh.length = ssh.length →
    (∀ i : Nat, i < ssh.length →
      max (so.getD i 0) (dov.getD i 0) <
        min (so.getD i 0 + ssh.getD i 0) (dov.getD i 0 + dsh.getD i 0)) →
    ∃ ss ds cs fo, intersect_axes so ssh dov dsh = some (ss, ds, cs, fo) ∧
      ss.length = ssh.length ∧ ds.length = ssh.length ∧ cs.length = ssh.length ∧
      (∀ i : Nat, i < ssh.length →
        cs.getD i 0 = min (ssh.getD i 0 - ss.getD i 0) (dsh.getD i 0 - ds.getD i 0) ∧
        cs.getD i 0 = min (so.getD i 0 + ssh.getD i 0) (dov.getD i 0 + dsh.getD i 0)
          - max (so.getD i 0) (dov.getD i 0) ∧
        (ss.getD i 0 = 0 ∨ ds.getD i 0 = 0)) := by
  intro so
  induction so with
  | nil =>
    intro ssh dov dsh h1 h2 h3 _
    have hssh : ssh = [] := List.eq_nil_of_length_eq_zero h1.symm
    subst hssh
    have hdov : dov = [] := List.eq_nil_of_length_eq_zero h2
    have hdsh : dsh = [] := List.eq_nil_of_length_eq_zero h3
    subst hdov
    subst hdsh
    exact ⟨[], [], [], true, rfl, rfl, rfl, rfl, fun i hi => absurd hi (by simp)⟩
  | cons so0 sos ih =>
    intro ssh dov dsh h1 h2 h3 hall
    cases ssh with
    | nil => simp at h1
    | cons ssh0 sshs =>
      cases dov with
      | nil => simp at h2
      | cons dov0 dos =>
        cases dsh with
        | nil => simp at h3
        | cons dsh0 dshs =>
          have h0 := hall 0 (by simp)
          simp only [List.getD_cons_zero] at h0
          have hcond : ¬(so0 + ssh0 ≤ dov0 ∨ dov0 + dsh0 ≤ so0) := by omega
          obtain ⟨ss, ds, cs, fo, heq, hl1, hl2, hl3, hprop⟩ :=
            ih sshs dos dshs (by simpa using h1) (by simpa using h2) (by simpa using h3)
              (fun i hi => by simpa using hall (i + 1) (by simpa using hi))
          by_cases hso : so0 < dov0
          · refine ⟨(dov0 - so0) :: ss, 0 :: ds, min (ssh0 - (dov0 - so0)) dsh0 :: cs,
              decide (min (ssh0 - (dov0 - so0)) dsh0 = dsh0) && fo, ?_,
              by simpa using hl1, by simpa using hl2, by simpa using hl3, ?_⟩
            · simp only [intersect_axes, if_neg hcond, if_pos hso, heq]
            · intro i hi
              cases i with
              | zero =>
                simp only [List.getD_cons_zero]
                exact ⟨by omega, by omega, Or.inr trivial⟩
              | succ j =>
                simp only [List.getD_cons_succ]
                exact hprop j (by simpa using hi)
          · refine ⟨0 :: ss, (so0 - dov0) :: ds, min (dsh0 - (so0 - dov0)) ssh0 :: cs,
              decide (min (dsh0 - (so0 - dov0)) ssh0 = dsh0) && fo, ?_,
              by simpa using hl1, by simpa using hl2, by simpa using hl3, ?_⟩
            · simp only [intersect_axes, if_neg hcond, if_neg hso, heq]
            · intro i hi
              cases i with
              | zero =>
                simp only [List.getD_cons_zero]
                exact ⟨by omega, by omega, Or.inl trivial⟩
              | succ j =>
                simp only [List.getD_cons_succ]
                exact hprop j (by simpa using hi)

/-- C3 (amended): for every pair of overlapping tiles (nonempty interval
intersection on every axis, `ndim ≥ 1`), `copy_intersection_work` submits a
task whose per-axis `src_start`, `dst_start` and `copy_shape` satisfy
`copy_shape[i] = min (src.shape[i] - src_start[i]) (dst.shape[i] - dst_start[i])`,
equal to the extent of the interval intersection, with *at least one* of
`src_start[i]`, `dst_start[i]` zero on each axis.  (The original claim's
"exactly one equal to zero" is refuted by `C3_counterexample`: when the two
offsets coincide on an axis, both starts are zero.) -/
theorem C3_overlap_starts_and_extent (insertRet : Int)
    (src_shape src_stride src_offset dst_shape dst_stride dst_offset : List Int)
    (hnd : 1 ≤ src_shape.length)
    (h1 : src_offset.length = src_shape.length)
    (h2 : dst_offset.length = src_shape.length)
    (h3 : dst_shape.length = src_shape.length)
    (hov : ∀ i : Nat, i < src_shape.length →
      max (src_offset.getD i 0) (dst_offset.getD i 0) <
        min (src_offset.getD i 0 + src_shape.getD i 0)
          (dst_offset.getD i 0 + dst_shape.getD i 0)) :
    ∃ t : CopyTask,
      (copy_intersection_work insertRet src_shape src_stride src_offset
        dst_shape dst_stride dst_offset).1 = [t] ∧
      t.ndim0 = false ∧
      (∀ i : Nat, i < src_shape.length →
        t.copy_shape.getD i 0 =
          min (src_shape.getD i 0 - t.src_start.getD i 0)
            (dst_shape.getD i 0 - t.dst_start.getD i 0) ∧
        t.copy_shape.getD i 0 =
          min (src_offset.getD i 0 + src_shape.getD i 0)
            (dst_offset.getD i 0 + dst_shape.getD i 0)
          - max (src_offset.getD i 0) (dst_offset.getD i 0) ∧
        (t.src_start.getD i 0 = 0 ∨ t.dst_start.getD i 0 = 0)) := by
  obtain ⟨ss, ds, cs, fo, heq, hl1, hl2, hl3, hprop⟩ :=
    intersect_axes_overlap src_offset src_shape dst_offset dst_shape h1 h2 h3 hov
  refine ⟨CopyTask.mk false (src_shape.length : Int) ss src_stride cs ds dst_stride
    (if fo then AccessMode.W else AccessMode.RW), ?_, rfl, ?_⟩
  · simp only [copy_intersection_work]
    rw [if_neg (by intro h; rw [Int.natCast_eq_zero] at h; omega), heq]
  · exact hprop

theorem C3_counterexample :
    max (0 : Int) 0 < min ((0 : Int) + 2) ((0 : Int) + 3) ∧
    (copy_intersection_work 0 [2] [1] [0] [3] [1] [0]).1.length = 1 ∧
    ¬Xor' (((copy_intersection_work 0 [2] [1] [0] [3] [1] [0]).1.headI.src_start.getD 0 1) = 0)
      (((copy_intersection_work 0 [2] [1] [0] [3] [1] [0]).1.headI.dst_start.getD 0 1) = 0) := by
  refine ⟨by norm_num, by decide, ?_⟩
  rw [Xor']
  decide

theorem C3_witness :
    ∃ t : CopyTask,
      (copy_intersection_work 0 [3] [1] [1] [4] [1] [0]).1 = [t] ∧
      t.ndim0 = false ∧
      (∀ i : Nat, i < ([3] : List Int).length →
        t.copy_shape.getD i 0 =
          min (([3] : List Int).getD i 0 - t.src_start.getD i 0)
            (([4] : List Int).getD i 0 - t.dst_start.getD i 0) ∧
        t.copy_shape.getD i 0 =
          min (([1] : List Int).getD i 0 + ([3] : List Int).getD i 0)
            (([0] : List Int).getD i 0 + ([4] : List Int).getD i 0)
          - max (([1] : List Int).getD i 0) (([0] : List Int).getD i 0) ∧
        (t.src_start.getD i 0 = 0 ∨ t.dst_start.getD i 0 = 0)) :=
  C3_overlap_starts_and_extent 0 [3] [1] [1] [4] [1] [0]
    (by decide) (by decide) (by decide) (by decide) (by decide)

theorem intersect_axes_fo : ∀ so ssh dov dsh ss ds cs : List Int, ∀ fo : Bool,
    intersect_axes so ssh dov dsh = some (ss, ds, cs, fo) →
    (fo = true ↔ cs = dsh) ∧ (cs = dsh → ds = zerosL dsh) := by
  intro so
  induction so with
  | nil =>
    intro ssh dov dsh ss ds cs fo h
    cases ssh with
    | nil =>
      cases dov with
      | nil =>
        cases dsh with
        | nil =>
          simp only [intersect_axes, Option.some.injEq, Prod.mk.injEq] at h
          obtain ⟨h1, h2, h3, h4⟩ := h
          subst h1; subst h2; subst h3; subst h4
          exact ⟨by simp, fun _ => rfl⟩
        | cons _ _ => simp [intersect_axes] at h
      | cons _ _ => simp [intersect_axes] at h
    | cons _ _ => simp [intersect_axes] at h
  | cons so0 sos ih =>
    intro ssh dov dsh ss ds cs fo h
    cases ssh with
    | nil => simp [intersect_axes] at h
    | cons ssh0 sshs =>
      cases dov with
      | nil => simp [intersect_axes] at h
      | cons dov0 dos =>
        cases dsh with
        | nil => simp [intersect_axes] at h
        | cons dsh0 dshs =>
          by_cases hcond : so0 + ssh0 ≤ dov0 ∨ dov0 + dsh0 ≤ so0
          · simp only [intersect_axes, if_pos hcond] at h
            exact absurd h (by simp)
          · cases hrec : intersect_axes sos sshs dos dshs with
            | none =>
              simp only [intersect_axes, if_neg hcond, hrec] at h
              exact absurd h (by simp)
            | some v =>
              obtain ⟨ss', ds', cs', fo'⟩ := v
              obtain ⟨hfo', hds'⟩ := ih sshs dos dshs ss' ds' cs' fo' hrec
              by_cases hso : so0 < dov0
              · simp only [intersect_axes, if_neg hcond, if_pos hso, hrec,
                  Option.some.injEq, Prod.mk.injEq] at h
                obtain ⟨h1, h2, h3, h4⟩ := h
                subst h1; subst h2; subst h3; subst h4
                constructor
                · simp only [Bool.and_eq_true, decide_eq_true_eq, List.cons.injEq]
                  rw [hfo']
                · intro hcs
                  simp only [List.cons.injEq] at hcs
                  simp only [zerosL, List.map]
                  have := hds' hcs.2
                  simp only [zerosL] at this
                  rw [this]
              · simp only [intersect_axes, if_neg hcond, if_neg hso, hrec,
                  Option.some.injEq, Prod.mk.injEq] at h
                obtain ⟨h1, h2, h3, h4⟩ := h
                subst h1; subst h2; subst h3; subst h4
                constructor
                · simp only [Bool.and_eq_true, decide_eq_true_eq, List.cons.injEq]
                  rw [hfo']
                · intro hcs
                  simp only [List.cons.injEq] at hcs
                  simp only [zerosL, List.map]
                  have hdz := hds' hcs.2
                  simp only [zerosL] at hdz
                  rw [hdz]
                  have : so0 - dov0 = 0 := by omega
                  rw [this]

/-- C4: `copy_intersection_work` submits the general copy task with Write-only
destination access if and only if the computed intersection covers the entire
destination tile on every axis (`copy_shape = dst.shape`), which also forces
`dst_start = 0` on every axis; in every other overlapping case the destination
access mode is ReadWrite. -/
theorem C4_write_mode_iff_full_overwrite (insertRet : Int)
    (src_shape src_stride src_offset dst_shape dst_stride dst_offset : List Int)
    (t : CopyTask)
    (h : (copy_intersection_work insertRet src_shape src_stride src_offset
      dst_shape dst_stride dst_offset).1 = [t])
    (hnd0 : t.ndim0 = false) :
    (t.dst_mode = AccessMode.W ↔ t.copy_shape = dst_shape) ∧
    (t.dst_mode = AccessMode.W → t.dst_start = zerosL dst_shape) ∧
    (t.dst_mode = AccessMode.W ∨ t.dst_mode = AccessMode.RW) := by
  simp only [copy_intersection_work] at h
  by_cases hz : (src_shape.length : Int) = 0
  · rw [if_pos hz] at h
    simp only [List.cons.injEq, and_true] at h
    rw [← h] at hnd0
    simp at hnd0
  · rw [if_neg hz] at h
    cases hrec : intersect_axes src_offset src_shape dst_offset dst_shape with
    | none =>
      rw [hrec] at h
      simp at h
    | some v =>
      obtain ⟨ss, ds, cs, fo⟩ := v
      rw [hrec] at h
      simp only [List.cons.injEq, and_true] at h
      obtain ⟨hfo, hds⟩ := intersect_axes_fo _ _ _ _ _ _ _ _ hrec
      rw [← h]
      cases fo with
      | true =>
        have hcs : cs = dst_shape := hfo.mp rfl
        exact ⟨iff_of_true rfl hcs, fun _ => hds hcs, Or.inl rfl⟩
      | false =>
        refine ⟨?_, ?_, Or.inr rfl⟩
        · apply iff_of_false
          · simp
          · intro hcs
            exact absurd (hfo.mpr hcs) (by simp)
        · intro hW
          exact absurd hW (by simp)

theorem C4_witness :
    ((CopyTask.mk false 1 [0] [1] [2] [0] [1] AccessMode.RW).dst_mode = AccessMode.W ↔
      (CopyTask.mk false 1 [0] [1] [2] [0] [1] AccessMode.RW).copy_shape = [3]) ∧
    ((CopyTask.mk false 1 [0] [1] [2] [0] [1] AccessMode.RW).dst_mode = AccessMode.W →
      (CopyTask.mk false 1 [0] [1] [2] [0] [1] AccessMode.RW).dst_start = zerosL [3]) ∧
    ((CopyTask.mk false 1 [0] [1] [2] [0] [1] AccessMode.RW).dst_mode = AccessMode.W ∨
      (CopyTask.mk false 1 [0] [1] [2] [0] [1] AccessMode.RW).dst_mode = AccessMode.RW) :=
  C4_write_mode_iff_full_overwrite 0 [2] [1] [0] [3] [1] [0]
    (CopyTask.mk false 1 [0] [1] [2] [0] [1] AccessMode.RW) (by decide) (by decide)

/-! ### The maxsumexp CPU kernel

Translated from `src/kernel/maxsumexp/cpu.cc`.  The scalar type `T` is
idealized as `Option α` over a linearly ordered field `α`, where `none`
models `-infinity` (the attention-mask value `std::isinf` detects) and the
exponential is an arbitrary function `e : α → α` extended with
`exp(-infinity) = 0`, exactly as IEEE arithmetic evaluates the code's
rescaling products. -/

/-- `exp(m - x)` where the minuend `m` may be `-infinity`:
`exp(-infinity - x) = 0`. -/
def expSub {α : Type} [LinearOrderedField α] (e : α → α) : Option α → α → α
  | none, _ => 0
  | some a, x => e (a - x)

/-- `exp(x - m)` where the subtrahend `m` may be `-infinity`; that case would
be `exp(+infinity)` and is unreachable in the kernel (the branch only runs
when `m` is at least the finite `x`), modelled as `0`. -/
def expSub' {α : Type} [LinearOrderedField α] (e : α → α) (x : α) : Option α → α
  | none => 0
  | some a => e (x - a)

/-- The comparison `m < v` on the kernel's scalar type
(`-infinity` is below every finite value). -/
def oLT {α : Type} [LinearOrderedField α] (m : Option α) (x : α) : Bool :=
  match m with
  | none => true
  | some a => decide (a < x)

/-- The slice accumulation loop (lines 64-83 of `src/kernel/maxsumexp/cpu.cc`):
iterate over the remaining slice elements, skipping `-infinity` values
(`std::isinf(val) → continue`); when the running maximum grows, rescale the
partial sum of exponents. -/
def sliceLoop {α : Type} [LinearOrderedField α] (e : α → α) :
    Option α → α → List (Option α) → Option α × α
  | mx, sm, [] => (mx, sm)
  | mx, sm, none :: rest => sliceLoop e mx sm rest
  | mx, sm, some x :: rest =>
    if oLT mx x then sliceLoop e (some x) (sm * expSub e mx x + 1) rest
    else sliceLoop e mx (sm + expSub' e x mx) rest

/-- Merge the computed slice pair into the output accumulator entry
(lines 84-110): do nothing when the slice max is `-infinity` (every element
masked out), overwrite when the stored sum is zero, otherwise rescale the
smaller-max side and add. -/
def mergeEntry {α : Type} [LinearOrderedField α] (e : α → α)
    (old : Option α × α) : Option α × α → Option α × α
  | (none, _) => old
  | (some mv, sm) =>
    if old.2 = 0 then (some mv, sm)
    else if oLT old.1 mv then (some mv, old.2 * expSub e old.1 mv + sm)
    else (old.1, sm * expSub' e mv old.1 + old.2)

/-- Process one slice of `k ≥ 1` elements: `max` is initialized from the
first element with no mask test and `sum` with `one` (lines 61-62), then the
loop runs over the rest and the result is merged into the accumulator. -/
def processSlice {α : Type} [LinearOrderedField α] (e : α → α)
    (old : Option α × α) : List (Option α) → Option α × α
  | [] => old
  | v :: rest => mergeEntry e old (sliceLoop e v 1 rest)

/-- The slice of the `m`-by-`k`-by-`n` input array at column `i1` and
row `i2`: elements `src[i2*m*k + i1 + i0*m]` for `i0 < k`. -/
def sliceList {α : Type} (m k : Int) (src : Int → Option α) (i1 i2 : Int) :
    List (Option α) :=
  (List.range k.toNat).map (fun i0 => src (i2 * m * k + i1 + (i0 : Int) * m))

/-- The maxsumexp CPU kernel: iterate over the output entries in the order
of the code's flat `dst_offset` (entry `(i1, i2)` indexed here by
`i2 * m + i1`, the flat buffer position `dst_offset / 2`), accumulating each
slice along the middle axis via `processSlice`. -/
def maxsumexp_cpu {α : Type} [LinearOrderedField α] (e : α → α) (m n k : Int)
    (src : Int → Option α) (out : Int → Option α × α) : Int → Option α × α :=
  (List.range n.toNat).foldl (fun acc i2 =>
    (List.range m.toNat).foldl (fun acc2 i1 =>
      updF acc2 ((i2 : Int) * m + (i1 : Int))
        (processSlice e (acc2 ((i2 : Int) * m + (i1 : Int)))
          (sliceList m k src (i1 : Int) (i2 : Int)))) acc) out

/-- The `(max, sum)` pair the loop yields for a whole slice: the kernel's
initialization from the head followed by `sliceLoop` over the tail. -/
def pairOf {α : Type} [LinearOrderedField α] (e : α → α) :
    List (Option α) → Option α × α
  | [] => (none, 1)
  | v :: rest => sliceLoop e v 1 rest

theorem sliceLoop_filter {α : Type} [LinearOrderedField α] (e : α → α) :
    ∀ (s : List (Option α)) (mx : Option α) (sm : α),
    sliceLoop e mx sm s = sliceLoop e mx sm (s.filter (fun v => v.isSome)) := by
  intro s
  induction s with
  | nil => intro mx sm; rfl
  | cons v rest ih =>
    intro mx sm
    cases v with
    | none => simpa [sliceLoop, List.filter] using ih mx sm
    | some x =>
      simp only [List.filter, Option.isSome]
      by_cases h : oLT mx x
      · simp only [sliceLoop, if_pos h]
        exact ih _ _
      · simp only [sliceLoop, if_neg h]
        exact ih _ _

theorem sliceLoop_bot_start {α : Type} [LinearOrderedField α] (e : α → α) :
    ∀ s : List (Option α),
    sliceLoop e none 1 s = pairOf e (s.filter (fun v => v.isSome)) := by
  intro s
  induction s with
  | nil => rfl
  | cons v rest ih =>
    cases v with
    | none => simpa [sliceLoop, List.filter] using ih
    | some x =>
      have h1 : oLT (none : Option α) x = true := rfl
      have h2 : (1 : α) * expSub e (none : Option α) x + 1 = 1 := by
        simp [expSub]
      simp only [List.filter, Option.isSome, sliceLoop, if_pos h1, h2, pairOf]
      exact sliceLoop_filter e rest (some x) 1

theorem pairOf_filter {α : Type} [LinearOrderedField α] (e : α → α) :
    ∀ s : List (Option α), pairOf e s = pairOf e (s.filter (fun v => v.isSome)) := by
  intro s
  cases s with
  | nil => rfl
  | cons v rest =>
    cases v with
    | none =>
      simp only [pairOf, List.filter, Option.isSome]
      exact sliceLoop_bot_start e rest
    | some x =>
      simp only [pairOf, List.filter, Option.isSome]
      exact sliceLoop_filter e rest (some x) 1

/-- C8: in the maxsumexp kernel, elements equal to negative infinity never
influence the computed maximum or the sum of exponents: the accumulator entry
written for a slice equals the entry computed over only the non-masked
elements of the slice (including when a negative-infinity element is the
current running maximum), and if every element of a slice is negative
infinity the accumulator entry is left completely unchanged.
(`processSlice` is the per-entry update `maxsumexp_cpu` performs.) -/
theorem C8_maxsumexp_masks_neg_inf {α : Type} [LinearOrderedField α] (e : α → α)
    (old : Option α × α) (s : List (Option α)) :
    (s.filter (fun v => v.isSome) ≠ [] →
      processSlice e old s = processSlice e old (s.filter (fun v => v.isSome))) ∧
    ((∀ v ∈ s, v = none) → s ≠ [] → processSlice e old s = old) := by
  constructor
  · intro hne
    cases s with
    | nil => exact absurd rfl hne
    | cons v rest =>
      have hpair := pairOf_filter e (v :: rest)
      cases hf : (v :: rest).filter (fun v => v.isSome) with
      | nil => exact absurd hf hne
      | cons w rest' =>
        rw [hf] at hpair
        simp only [pairOf] at hpair
        simp only [processSlice]
        rw [hpair]
  · intro hall hne
    have hf : s.filter (fun v => v.isSome) = [] := by
      rw [List.filter_eq_nil_iff]
      intro a ha
      rw [hall a ha]
      simp
    have hpair : pairOf e s = (none, 1) := by
      rw [pairOf_filter e s, hf]
      rfl
    cases s with
    | nil => exact absurd rfl hne
    | cons v rest =>
      simp only [pairOf] at hpair
      simp only [processSlice, hpair, mergeEntry]

theorem C8_witness :
    ([none, some 3, none, some 5].filter (fun v : Option ℚ => v.isSome)
      = [some 3, some 5]) ∧
    processSlice (fun x : ℚ => x) (none, 0) [none, some 3, none, some 5] =
      processSlice (fun x : ℚ => x) (none, 0)
        ([none, some 3, none, some 5].filter (fun v => v.isSome)) ∧
    processSlice (fun x : ℚ => x) (none, 0) [none, none] = (none, 0) :=
  ⟨by decide,
   (C8_maxsumexp_masks_neg_inf (fun x : ℚ => x) (none, 0)
      [none, some 3, none, some 5]).1 (by decide),
   (C8_maxsumexp_masks_neg_inf (fun x : ℚ => x) (none, 0) [none, none]).2
      (by decide) (by decide)⟩

/-! ### The tensor gather operation

Translated from `src/tensor/gather.cc`.  A tensor is modelled by the data
`gather_async` reads from it: shapes, grid geometry, and per-tile handles,
ranks and traits (the traits derivations of `TensorTraits` live in a header
that is not among the given sources, so they enter as data with the
geometry facts the relevant claims assume as hypotheses).  The function
returns the ordered list of runtime actions it performed together with the
thrown error, if any. -/

structure GTensor where
  shape : List Int
  basetile_shape : List Int
  grid_shape : List Int
  grid_nelems : Int
  tile_handle : Int → Int
  tile_rank : Int → Int
  tile_stride : Int → List Int
  tile_shape : Int → List Int

/-- Runtime actions of `gather_async`: an MPI transfer of a tile to a rank,
a `starpu_data_cpy`, a `starpu::subcopy::submit` with its full argument list
(in the order of the call at `src/tensor/gather.cc:86` and `:114`), and an
MPI cache flush. -/
inductive GAction
  | transfer (h toRank fromRank : Int)
  | datacpy (dstH srcH : Int)
  | subcopy (ndim : Int) (src_start src_stride dst_start dst_stride shape : List Int)
      (srcH dstH : Int) (mode : AccessMode)
  | flush (h : Int)
  deriving DecidableEq

/-- The tile-index odometer of `gather_async` (lines 95-102): axis 0 was just
incremented; wrap axes while `src_tile_index[k] == src.grid.shape[k]`. -/
def advanceG : List Int → List Int → List Int
  | i :: itl, c :: ctl =>
    if i = c then
      match itl, ctl with
      | i1 :: itl1, c1 :: ctl1 => 0 :: advanceG ((i1 + 1) :: itl1) (c1 :: ctl1)
      | _, _ => 0 :: itl
    else i :: itl
  | i, _ => i
  termination_by i _ => i.length

theorem advanceG_spec : ∀ d c : List Int, validD d c → hasRoom d c →
    advanceG (headSucc d) c = incD d c := by
  intro d
  induction d with
  | nil => intro c _ hr; exact absurd hr (by cases c <;> simp [hasRoom])
  | cons d0 ds ih =>
    intro c hv hr
    cases c with
    | nil => exact absurd hv (by simp [validD])
    | cons c0 cs =>
      obtain ⟨hv0, hv1, hv2⟩ := hv
      cases ds with
      | nil =>
        have hcs : cs = [] := by
          cases cs with
          | nil => rfl
          | cons _ _ => exact absurd hv2 (by simp [validD])
        subst hcs
        have hlt : d0 + 1 < c0 := by
          rcases hr with h' | h'
          · exact h'
          · exact absurd h'.2 (by simp [hasRoom])
        simp only [headSucc, advanceG, if_neg (by omega : ¬(d0 + 1 = c0)), incD]
      | cons d1 ds1 =>
        cases cs with
        | nil => exact absurd hv2 (by simp [validD])
        | cons c1 cs1 =>
          by_cases hwrap : d0 + 1 = c0
          · have hroom : hasRoom (d1 :: ds1) (c1 :: cs1) := by
              rcases hr with h' | h'
              · omega
              · exact h'.2
            have hih := ih (c1 :: cs1) hv2 hroom
            simp only [headSucc] at hih
            simp only [headSucc, advanceG, if_pos hwrap, hih, incD, if_pos hwrap]
          · simp only [headSucc, advanceG, if_neg hwrap, incD]

/-- The multi-tile loop of `gather_async` (lines 92-119), carrying the
incrementally maintained tile index: for each remaining source tile,
advance the index with carry propagation, transfer the tile to the
destination rank, and (on the destination rank) submit the strided
subcopy with `dst_tile_start[k] = index[k] * basetile_shape[k]` and
ReadWrite destination access. -/
def gatherLoop (mpi_rank dst_rank dstH : Int) (src : GTensor) (dstStride : List Int) :
    Int → Nat → List Int → List GAction
  | _, 0, _ => []
  | i, t + 1, idx =>
    let idx' := advanceG (headSucc idx) src.grid_shape
    (GAction.transfer (src.tile_handle i) dst_rank mpi_rank ::
      (if mpi_rank = dst_rank then
        [GAction.subcopy (src.shape.length : Int) (zerosL src.shape) (src.tile_stride i)
          (mulL idx' src.basetile_shape) dstStride (src.tile_shape i)
          (src.tile_handle i) dstH AccessMode.RW]
      else [])) ++ gatherLoop mpi_rank dst_rank dstH src dstStride (i + 1) t idx'

/-- `gather_async` (lines 31-122): the single-tile shortcut check, the two
fail-fast shape checks, the `starpu_data_cpy` path (its return code is the
`cpyRet` argument) and the general multi-tile loop. -/
def gather_async (cpyRet mpi_rank : Int) (src dst : GTensor) :
    List GAction × Option String :=
  if dst.grid_nelems ≠ 1 then ([], some "Destination must be a single-tiled tensor")
  else if src.shape ≠ dst.shape then ([], some "src.shape != dst.shape")
  else
    let dstH := dst.tile_handle 0
    let dst_rank := dst.tile_rank 0
    if src.grid_nelems = 1 then
      let srcH := src.tile_handle 0
      if mpi_rank = dst_rank then
        if cpyRet ≠ 0 then
          ([GAction.transfer srcH dst_rank mpi_rank, GAction.datacpy dstH srcH],
            some "Error in starpu_data_cpy")
        else
          ([GAction.transfer srcH dst_rank mpi_rank, GAction.datacpy dstH srcH,
            GAction.flush dstH], none)
      else ([GAction.transfer srcH dst_rank mpi_rank, GAction.flush dstH], none)
    else
      (GAction.transfer (src.tile_handle 0) dst_rank mpi_rank ::
        (if mpi_rank = dst_rank then
          [GAction.subcopy (src.shape.length : Int) (zerosL src.shape)
            (src.tile_stride 0) (zerosL src.shape) (dst.tile_stride 0)
            (src.tile_shape 0) (src.tile_handle 0) dstH AccessMode.W]
        else []) ++
        (gatherLoop mpi_rank dst_rank dstH src (dst.tile_stride 0) 1
          ((src.grid_nelems - 1).toNat) (zerosL src.shape) ++
          [GAction.flush dstH]),
        none)

/-- Specification-level description of the multi-tile loop: the tile index of
source tile `i` is *recomputed* as `linear_to_index i` instead of being
carried incrementally. -/
def gatherSpecLoop (mpi_rank dst_rank dstH : Int) (src : GTensor)
    (dstStride : List Int) : Nat → Int → List GAction
  | 0, _ => []
  | t + 1, i =>
    (GAction.transfer (src.tile_handle i) dst_rank mpi_rank ::
      (if mpi_rank = dst_rank then
        [GAction.subcopy (src.shape.length : Int) (zerosL src.shape) (src.tile_stride i)
          (mulL (linear_to_index src.grid_shape i) src.basetile_shape) dstStride
          (src.tile_shape i) (src.tile_handle i) dstH AccessMode.RW]
      else [])) ++ gatherSpecLoop mpi_rank dst_rank dstH src dstStride t (i + 1)

theorem zerosL_congr : ∀ a b : List Int, a.length = b.length → zerosL a = zerosL b := by
  intro a
  induction a with
  | nil => intro b h; cases b with
    | nil => rfl
    | cons _ _ => simp at h
  | cons x xs ih =>
    intro b h
    cases b with
    | nil => simp at h
    | cons y ys =>
      simp only [zerosL, List.map, List.cons.injEq]
      exact ⟨trivial, ih ys (by simpa using h)⟩

theorem gatherLoop_spec (mpi_rank dst_rank dstH : Int) (src : GTensor)
    (dstStride : List Int) (hp : posC src.grid_shape) :
    ∀ (count t0 : Nat), ((t0 + count : Nat) : Int) < prodL src.grid_shape →
    gatherLoop mpi_rank dst_rank dstH src dstStride ((t0 : Int) + 1) count
        (digitsIter t0 src.grid_shape) =
      gatherSpecLoop mpi_rank dst_rank dstH src dstStride count ((t0 : Int) + 1) := by
  intro count
  induction count with
  | zero => intro t0 _; rfl
  | succ t ih =>
    intro t0 hlt
    have h1 : ((t0 : Int)) < prodL src.grid_shape := by push_cast at hlt ⊢; omega
    have h2 : ((t0 : Int)) + 1 < prodL src.grid_shape := by push_cast at hlt ⊢; omega
    obtain ⟨hv, _⟩ := digitsIter_spec t0 src.grid_shape hp h1
    have hroom := hasRoom_of_lt t0 src.grid_shape hp h2
    have hadv : advanceG (headSucc (digitsIter t0 src.grid_shape)) src.grid_shape =
        digitsIter (t0 + 1) src.grid_shape := by
      rw [advanceG_spec _ _ hv hroom, digitsIter_succ]
    have hli : digitsIter (t0 + 1) src.grid_shape =
        linear_to_index src.grid_shape ((t0 : Int) + 1) := by
      have h3 := digitsIter_eq_linear_to_index (t0 + 1) src.grid_shape hp
        (by push_cast at hlt ⊢; omega)
      rw [h3]
      norm_cast
    have hihe := ih (t0 + 1) (by push_cast at hlt ⊢; omega)
    rw [hli] at hihe
    have hcast : ((t0 + 1 : Nat) : Int) = (t0 : Int) + 1 := by push_cast; ring
    rw [hcast] at hihe
    simp only [gatherLoop, gatherSpecLoop, hadv, hli, hihe]

/-- C9: in `gather_async`'s multi-tile loop the incrementally maintained
source-tile multi-index equals `src.grid.linear_to_index i` for every linear
tile index `i`, so each source tile `i` is copied to the destination offset
`dst_tile_start[k] = linear_to_index(i)[k] * src.basetile_shape[k]`; the
first tile is submitted with Write access and every subsequent tile with
ReadWrite access.  Stated as a trace equality between `gather_async` and the
specification-level description that recomputes `linear_to_index i` per
tile. -/
theorem C9_gather_incremental_index (cpyRet mpi_rank : Int) (src dst : GTensor)
    (h1 : dst.grid_nelems = 1) (h2 : src.shape = dst.shape)
    (hmulti : src.grid_nelems ≠ 1)
    (hgeom : src.grid_nelems = prodL src.grid_shape)
    (hp : posC src.grid_shape)
    (hlen : src.grid_shape.length = src.shape.length) :
    gather_async cpyRet mpi_rank src dst =
      (GAction.transfer (src.tile_handle 0) (dst.tile_rank 0) mpi_rank ::
        (if mpi_rank = dst.tile_rank 0 then
          [GAction.subcopy (src.shape.length : Int) (zerosL src.shape)
            (src.tile_stride 0) (zerosL src.shape) (dst.tile_stride 0)
            (src.tile_shape 0) (src.tile_handle 0) (dst.tile_handle 0) AccessMode.W]
        else []) ++
        (gatherSpecLoop mpi_rank (dst.tile_rank 0) (dst.tile_handle 0) src
          (dst.tile_stride 0) ((src.grid_nelems - 1).toNat) 1 ++
          [GAction.flush (dst.tile_handle 0)]), none) := by
  have hzz : zerosL src.shape = digitsIter 0 src.grid_shape := by
    simp only [digitsIter, Function.iterate_zero, id_eq]
    exact zerosL_congr _ _ hlen.symm
  have hprod := prodL_pos _ hp
  have hcnt : ((0 + (src.grid_nelems - 1).toNat : Nat) : Int) < prodL src.grid_shape := by
    have := Int.toNat_of_nonneg (by omega : (0 : Int) ≤ src.grid_nelems - 1)
    push_cast
    omega
  have hloop := gatherLoop_spec mpi_rank (dst.tile_rank 0) (dst.tile_handle 0) src
    (dst.tile_stride 0) hp ((src.grid_nelems - 1).toNat) 0 hcnt
  simp only [Nat.cast_zero, zero_add] at hloop
  simp only [gather_async]
  rw [if_neg (fun hne => hne h1), if_neg (fun hne => hne h2), if_neg hmulti]
  rw [hzz, hloop]

/-- A concrete two-tile source tensor for the gather witnesses. -/
def gtSrc : GTensor :=
  GTensor.mk [4] [2] [2] 2 (fun i => i) (fun _ => 0) (fun _ => [1]) (fun _ => [2])

/-- A concrete single-tile destination tensor for the gather witnesses. -/
def gtDst : GTensor :=
  GTensor.mk [4] [4] [1] 1 (fun i => 100 + i) (fun _ => 0) (fun _ => [1]) (fun _ => [4])

theorem C9_witness :
    gather_async 0 0 gtSrc gtDst =
      (GAction.transfer (gtSrc.tile_handle 0) (gtDst.tile_rank 0) 0 ::
        (if (0 : Int) = gtDst.tile_rank 0 then
          [GAction.subcopy (gtSrc.shape.length : Int) (zerosL gtSrc.shape)
            (gtSrc.tile_stride 0) (zerosL gtSrc.shape) (gtDst.tile_stride 0)
            (gtSrc.tile_shape 0) (gtSrc.tile_handle 0) (gtDst.tile_handle 0)
            AccessMode.W]
        else []) ++
        (gatherSpecLoop 0 (gtDst.tile_rank 0) (gtDst.tile_handle 0) gtSrc
          (gtDst.tile_stride 0) ((gtSrc.grid_nelems - 1).toNat) 1 ++
          [GAction.flush (gtDst.tile_handle 0)]), none) :=
  C9_gather_incremental_index 0 0 gtSrc gtDst rfl rfl (by norm_num [gtSrc])
    (by decide) (by decide) rfl

/-! ### The fused LARS optimizer step

Translated from `src/starpu/lars_tiled_step.cc` (the `submit` wrapper) and
`src/tensor/lars_tiled_step.cc` (the tensor-level loop).  Scalars are
idealized as rationals; they are only packed and carried. -/

/-- The argument block and handles of one `lars_tiled_step` task as handed to
`starpu_task_insert` (gradient read-only, momentum buffer Write on the first
iteration and ReadWrite afterwards, parameters ReadWrite). -/
structure LarsTask where
  num_iter : Int
  num_elems : Int
  num_steps : Int
  gamma_0 : ℚ
  momentum : ℚ
  weight_decay : ℚ
  lars_coefficient : ℚ
  grad : Int
  momentum_buffer : Int
  p : Int
  moments_mode : AccessMode
  deriving DecidableEq

/-- `starpu::lars_tiled_step::submit` (lines 155-191): pack the arguments,
choose the momentum-buffer access mode from `num_iter`, insert the task
(return code `insertRet`) and throw when insertion fails. -/
def lars_tiled_step_submit (insertRet : Int) (num_iter num_elems num_steps : Int)
    (gamma_0 momentum weight_decay lars_coefficient : ℚ)
    (grad momentum_buffer p : Int) : List LarsTask × Option String :=
  let moments_mode := if num_iter = 1 then AccessMode.W else AccessMode.RW
  ([LarsTask.mk num_iter num_elems num_steps gamma_0 momentum weight_decay
      lars_coefficient grad momentum_buffer p moments_mode],
   if insertRet ≠ 0 then some "Error in lars_tiled_step task submission" else none)

/-- A tensor as seen by `lars_tiled_step_async`: the matrix shape compared by
the fail-fast checks, the tile-grid size, and per-tile handles, ranks and
element counts. -/
structure LTensor where
  matrix_shape : List Int
  grid_nelems : Int
  tile_handle : Int → Int
  tile_rank : Int → Int
  tile_nelems : Int → Int

/-- Runtime actions of `lars_tiled_step_async`. -/
inductive LAction
  | transfer (h toRank fromRank : Int)
  | task (t : LarsTask)
  | flush (h : Int)
  deriving DecidableEq

/-- The per-tile loop of `lars_tiled_step_async` (lines 39-61): transfer the
gradient and momentum tiles to the parameter tile's rank, submit on that
rank (stopping if submission throws), flush the parameter tile. -/
def larsLoop (insertRet mpi_rank : Int) (num_iter num_steps : Int)
    (gamma_0 momentum weight_decay lars_coefficient : ℚ)
    (grad momentum_buffer p : LTensor) : Nat → Int → List LAction × Option String
  | 0, _ => ([], none)
  | t + 1, i =>
    let p_rank := p.tile_rank i
    let transfers := [LAction.transfer (grad.tile_handle i) p_rank mpi_rank,
      LAction.transfer (momentum_buffer.tile_handle i) p_rank mpi_rank]
    if mpi_rank = p_rank then
      match lars_tiled_step_submit insertRet num_iter (p.tile_nelems i) num_steps
        gamma_0 momentum weight_decay lars_coefficient (grad.tile_handle i)
        (momentum_buffer.tile_handle i) (p.tile_handle i) with
      | (ts, some e) => (transfers ++ ts.map LAction.task, some e)
      | (ts, none) =>
        let rest := larsLoop insertRet mpi_rank num_iter num_steps gamma_0 momentum
          weight_decay lars_coefficient grad momentum_buffer p t (i + 1)
        (transfers ++ ts.map LAction.task ++ [LAction.flush (p.tile_handle i)] ++
          rest.1, rest.2)
    else
      let rest := larsLoop insertRet mpi_rank num_iter num_steps gamma_0 momentum
        weight_decay lars_coefficient grad momentum_buffer p t (i + 1)
      (transfers ++ [LAction.flush (p.tile_handle i)] ++ rest.1, rest.2)

/-- `lars_tiled_step_async` (lines 22-62): the two fail-fast matrix-shape
checks followed by the per-tile loop. -/
def lars_tiled_step_async (insertRet mpi_rank : Int) (num_iter num_steps : Int)
    (gamma_0 momentum weight_decay lars_coefficient : ℚ)
    (grad momentum_buffer p : LTensor) : List LAction × Option String :=
  if p.matrix_shape ≠ grad.matrix_shape then
    ([], some "Parameter shape is not equal to gradient shape")
  else if p.matrix_shape ≠ momentum_buffer.matrix_shape then
    ([], some "Parameter shape is not equal to momentum_buffer shape")
  else
    larsLoop insertRet mpi_rank num_iter num_steps gamma_0 momentum weight_decay
      lars_coefficient grad momentum_buffer p p.grid_nelems.toNat 0

/-- C5: shape-compatibility configuration errors are detected synchronously,
before any asynchronous work is queued: `gather_async` throws and performs no
action whenever the destination grid has more than one tile or
`src.shape ≠ dst.shape`; `lars_tiled_step_async` throws and performs no
action whenever the parameter, gradient and momentum-buffer tensors disagree
in matrix shape; and each function performs actions only when its checks
pass. -/
theorem C5_config_errors_fail_fast :
    (∀ (cpyRet mpi_rank : Int) (src dst : GTensor),
      (1 < dst.grid_nelems ∨ src.shape ≠ dst.shape) →
      (gather_async cpyRet mpi_rank src dst).1 = [] ∧
      (gather_async cpyRet mpi_rank src dst).2 ≠ none) ∧
    (∀ (cpyRet mpi_rank : Int) (src dst : GTensor),
      (gather_async cpyRet mpi_rank src dst).1 ≠ [] →
      dst.grid_nelems = 1 ∧ src.shape = dst.shape) ∧
    (∀ (insertRet mpi_rank num_iter num_steps : Int) (g m w l : ℚ)
      (grad mb p : LTensor),
      (p.matrix_shape ≠ grad.matrix_shape ∨ p.matrix_shape ≠ mb.matrix_shape) →
      (lars_tiled_step_async insertRet mpi_rank num_iter num_steps g m w l
        grad mb p).1 = [] ∧
      (lars_tiled_step_async insertRet mpi_rank num_iter num_steps g m w l
        grad mb p).2 ≠ none) ∧
    (∀ (insertRet mpi_rank num_iter num_steps : Int) (g m w l : ℚ)
      (grad mb p : LTensor),
      (lars_tiled_step_async insertRet mpi_rank num_iter num_steps g m w l
        grad mb p).1 ≠ [] →
      p.matrix_shape = grad.matrix_shape ∧ p.matrix_shape = mb.matrix_shape) := by
  refine ⟨?_, ?_, ?_, ?_⟩
  · intro cpyRet mpi_rank src dst h
    by_cases h1 : dst.grid_nelems ≠ 1
    · simp [gather_async, if_pos h1]
    · rcases h with h | h
      · omega
      · push_neg at h1
        simp [gather_async, h1, if_pos h]
  · intro cpyRet mpi_rank src dst h
    by_cases h1 : dst.grid_nelems ≠ 1
    · exact absurd (by simp [gather_async, if_pos h1]) h
    · by_cases h2 : src.shape ≠ dst.shape
      · exact absurd (by simp [gather_async, if_neg h1, if_pos h2]) h
      · push_neg at h1 h2
        exact ⟨h1, h2⟩
  · intro insertRet mpi_rank num_iter num_steps g m w l grad mb p h
    by_cases h1 : p.matrix_shape ≠ grad.matrix_shape
    · simp [lars_tiled_step_async, if_pos h1]
    · rcases h with h | h
      · exact absurd h h1
      · simp [lars_tiled_step_async, if_neg h1, if_pos h]
  · intro insertRet mpi_rank num_iter num_steps g m w l grad mb p h
    by_cases h1 : p.matrix_shape ≠ grad.matrix_shape
    · exact absurd (by simp [lars_tiled_step_async, if_pos h1]) h
    · by_cases h2 : p.matrix_shape ≠ mb.matrix_shape
      · exact absurd (by simp [lars_tiled_step_async, if_neg h1, if_pos h2]) h
      · push_neg at h1 h2
        exact ⟨h1, h2⟩

/-- A parameter tensor with matrix shape `[2, 3]` for the LARS witnesses. -/
def ltA : LTensor := LTensor.mk [2, 3] 1 (fun i => i) (fun _ => 0) (fun _ => 6)

/-- A tensor with the transposed matrix shape `[3, 2]`. -/
def ltB : LTensor := LTensor.mk [3, 2] 1 (fun i => 10 + i) (fun _ => 0) (fun _ => 6)

theorem C5_witness :
    ((gather_async 0 0 gtDst gtSrc).1 = [] ∧
      (gather_async 0 0 gtDst gtSrc).2 ≠ none) ∧
    ((lars_tiled_step_async 0 0 1 1 0 0 0 0 ltA ltA ltB).1 = [] ∧
      (lars_tiled_step_async 0 0 1 1 0 0 0 0 ltA ltA ltB).2 ≠ none) :=
  ⟨C5_config_errors_fail_fast.1 0 0 gtDst gtSrc (Or.inl (by norm_num [gtSrc])),
   C5_config_errors_fail_fast.2.2.1 0 0 1 1 0 0 0 0 ltA ltA ltB
     (Or.inl (by norm_num [ltA, ltB]))⟩

/-- C6: every modelled submission path raises an error exactly when the
underlying enqueue reports failure: `copy_intersection_work` throws iff it
handed a task to `starpu_task_insert` and the insertion code is nonzero;
`lars_tiled_step::submit` throws iff its insertion code is nonzero; and on
the single-tile gather path executed on the destination rank, `gather_async`
throws iff `starpu_data_cpy` returns a nonzero code. -/
theorem C6_submission_failures_raise :
    (∀ (insertRet : Int)
      (src_shape src_stride src_offset dst_shape dst_stride dst_offset : List Int),
      (copy_intersection_work insertRet src_shape src_stride src_offset
        dst_shape dst_stride dst_offset).2 ≠ none ↔
      ((copy_intersection_work insertRet src_shape src_stride src_offset
        dst_shape dst_stride dst_offset).1 ≠ [] ∧ insertRet ≠ 0)) ∧
    (∀ (insertRet num_iter num_elems num_steps : Int) (g m w l : ℚ)
      (grad mb p : Int),
      (lars_tiled_step_submit insertRet num_iter num_elems num_steps g m w l
        grad mb p).2 ≠ none ↔ insertRet ≠ 0) ∧
    (∀ (cpyRet mpi_rank : Int) (src dst : GTensor),
      dst.grid_nelems = 1 → src.shape = dst.shape → src.grid_nelems = 1 →
      mpi_rank = dst.tile_rank 0 →
      ((gather_async cpyRet mpi_rank src dst).2 ≠ none ↔ cpyRet ≠ 0)) := by
  refine ⟨?_, ?_, ?_⟩
  · intro insertRet src_shape src_stride src_offset dst_shape dst_stride dst_offset
    simp only [copy_intersection_work]
    by_cases hz : (src_shape.length : Int) = 0
    · rw [if_pos hz]
      by_cases hr : insertRet ≠ 0 <;> simp [hr]
    · rw [if_neg hz]
      cases hrec : intersect_axes src_offset src_shape dst_offset dst_shape with
      | none => simp
      | some v =>
        obtain ⟨ss, ds, cs, fo⟩ := v
        by_cases hr : insertRet ≠ 0 <;> simp [hr]
  · intro insertRet num_iter num_elems num_steps g m w l grad mb p
    simp only [lars_tiled_step_submit]
    by_cases hr : insertRet ≠ 0 <;> simp [hr]
  · intro cpyRet mpi_rank src dst h1 h2 h3 h4
    simp only [gather_async]
    rw [if_neg (fun hne => hne h1), if_neg (fun hne => hne h2), if_pos h3, if_pos h4]
    by_cases hr : cpyRet ≠ 0 <;> simp [hr]

theorem C6_witness :
    ((copy_intersection_work 2 [2] [1] [0] [3] [1] [0]).2 ≠ none ↔
      ((copy_intersection_work 2 [2] [1] [0] [3] [1] [0]).1 ≠ [] ∧ (2 : Int) ≠ 0)) ∧
    ((lars_tiled_step_submit 1 1 4 1 0 0 0 0 7 8 9).2 ≠ none ↔ (1 : Int) ≠ 0) ∧
    ((gather_async 5 0 gtDst gtDst).2 ≠ none ↔ (5 : Int) ≠ 0) :=
  ⟨C6_submission_failures_raise.1 2 [2] [1] [0] [3] [1] [0],
   C6_submission_failures_raise.2.1 1 1 4 1 0 0 0 0 7 8 9,
   C6_submission_failures_raise.2.2 5 0 gtDst gtDst rfl rfl rfl rfl⟩

/-! ### The `Tile` buffer-size check

Translated from `include/nntile/tile/tile.hh` lines 36-53 and the
caller-provided-buffer constructors (lines 73-84).  `size_t` arithmetic is
modelled on `Nat` with explicit reduction modulo `2 ^ 64` (the traits'
`nelems`, a nonnegative `Index`, enters as a `Nat`). -/

/-- `Tile::_get_size`: refuse a buffer smaller than the traits' element
count, compute `nelems * sizeof(T)` in `size_t` arithmetic, and refuse when
dividing back does not recover `nelems` (the overflow check). -/
def _get_size (sizeofT nelems ptr_nelems : Nat) : Except String Nat :=
  if nelems > ptr_nelems then
    .error "Required memory size is larger than actually allocated memory"
  else
    let size := nelems * sizeofT % 2 ^ 64
    if size / sizeofT ≠ nelems then
      .error "Type size_t is not enough to hold size of provided buffer"
    else .ok size

/-- The StarPU variable handle a caller-provided-buffer `Tile` constructor
creates: the byte count from `_get_size` and `STARPU_RW` access. -/
structure TileHandle where
  nbytes : Nat
  mode : AccessMode
  deriving DecidableEq

/-- The caller-provided-buffer `Tile` constructor: wrap the buffer in a
handle of `_get_size` bytes, or propagate the thrown error (no handle is
created). -/
def Tile_wrap (sizeofT nelems ptr_nelems : Nat) : Except String TileHandle :=
  match _get_size sizeofT nelems ptr_nelems with
  | .error e => .error e
  | .ok size => .ok (TileHandle.mk size AccessMode.RW)

/-- C10: constructing a `Tile` over a caller-provided buffer throws, creating
no handle, if and only if the provided element count is smaller than the
traits' `nelems` or `nelems * sizeof(T)` overflows `size_t`; otherwise it
wraps the buffer with size exactly `nelems * sizeof(T)` bytes. -/
theorem C10_tile_wrap_guard (sizeofT nelems ptr_nelems : Nat) (hs : 0 < sizeofT) :
    ((Tile_wrap sizeofT nelems ptr_nelems).toOption = none ↔
      (ptr_nelems < nelems ∨ 2 ^ 64 ≤ nelems * sizeofT)) ∧
    (¬(ptr_nelems < nelems ∨ 2 ^ 64 ≤ nelems * sizeofT) →
      Tile_wrap sizeofT nelems ptr_nelems =
        .ok (TileHandle.mk (nelems * sizeofT) AccessMode.RW)) := by
  by_cases hlt : nelems > ptr_nelems
  · constructor
    · apply iff_of_true
      · simp only [Tile_wrap, _get_size, if_pos hlt]
        simp [Except.toOption]
      · exact Or.inl hlt
    · intro h
      exact absurd (Or.inl hlt) h
  · by_cases hov : 2 ^ 64 ≤ nelems * sizeofT
    · have hsz : nelems * sizeofT % 2 ^ 64 / sizeofT ≠ nelems := by
        have hmod : nelems * sizeofT % 2 ^ 64 < 2 ^ 64 :=
          Nat.mod_lt _ (by norm_num)
        have hdiv : nelems * sizeofT % 2 ^ 64 / sizeofT < nelems := by
          rw [Nat.div_lt_iff_lt_mul hs]
          omega
        omega
      constructor
      · apply iff_of_true
        · simp only [Tile_wrap, _get_size, if_neg hlt, if_pos hsz]
          simp [Except.toOption]
        · exact Or.inr hov
      · intro h
        exact absurd (Or.inr hov) h
    · have hnov : nelems * sizeofT < 2 ^ 64 := by omega
      have hmod : nelems * sizeofT % 2 ^ 64 = nelems * sizeofT :=
        Nat.mod_eq_of_lt hnov
      have hsz : ¬(nelems * sizeofT / sizeofT ≠ nelems) := by
        rw [Nat.mul_div_cancel _ hs]
        omega
      constructor
      · apply iff_of_false
        · simp only [Tile_wrap, _get_size, if_neg hlt, hmod, if_neg hsz]
          simp [Except.toOption]
        · omega
      · intro _
        simp only [Tile_wrap, _get_size, if_neg hlt, hmod, if_neg hsz]

theorem C10_witness :
    (0 < 8 ∧
      ((Tile_wrap 8 4 2).toOption = none ↔ (2 < 4 ∨ 2 ^ 64 ≤ 4 * 8))) ∧
    (¬((10 : Nat) < 4 ∨ 2 ^ 64 ≤ 4 * 8) ∧
      Tile_wrap 8 4 10 = .ok (TileHandle.mk (4 * 8) AccessMode.RW)) :=
  ⟨⟨by norm_num, (C10_tile_wrap_guard 8 4 2 (by norm_num)).1⟩,
   ⟨by norm_num,
    (C10_tile_wrap_guard 8 4 10 (by norm_num)).2 (by norm_num)⟩⟩
